import Mathlib

/-!
Verification of the rusty-pelican in-memory key-value server against its
specification.  The Rust sources are shallowly embedded: Rust strings become
`List Char`, `HashMap` / `BTreeMap` / `BTreeSet` become association lists
resp. lists, fallible or panicking code returns `Option` / `Except`, and
`f64` scores are modelled as exact rationals (the claims under study only
involve small integer scores, on which `f64` arithmetic and `total_cmp`
agree with the rational order).  Machine integers are modelled as `Int` /
`Nat`; the only place an integer cast is observable, the `as usize` cast in
the list `range` operation, is modelled explicitly modulo `2 ^ 64`.
-/

/-- Rust `String` / `str`, modelled as its character sequence. -/
abbrev Str : Type := List Char

/-- The two-character line terminator used by the wire protocol. -/
def crlf : Str := ['\r', '\n']

/-- Prepend a character to the first piece of a split result (used to state
the equations of `splitCRLF`). -/
def consFirst (c : Char) : List Str → List Str
  | [] => [[c]]
  | p :: ps => (c :: p) :: ps

/-- Model of Rust `phrase.split("\r\n")`: splits at every occurrence of the
two-character separator, scanning left to right; the separator is not part
of any piece and a trailing separator yields a final empty piece. -/
def splitCRLF : Str → List Str
  | [] => [[]]
  | '\r' :: '\n' :: rest => [] :: splitCRLF rest
  | c :: rest => consFirst c (splitCRLF rest)

/-- True when the string contains no CR LF two-character subsequence. -/
def noCRLF : Str → Bool
  | [] => true
  | '\r' :: '\n' :: _ => false
  | _ :: rest => noCRLF rest

@[simp]
theorem splitCRLF_nil : splitCRLF [] = [[]] := rfl

@[simp]
theorem splitCRLF_crlf (rest : Str) :
    splitCRLF ('\r' :: '\n' :: rest) = [] :: splitCRLF rest := rfl

theorem splitCRLF_cons_of_ne (c : Char) (s : Str)
    (h : ¬(c = '\r' ∧ s.head? = some '\n')) :
    splitCRLF (c :: s) = consFirst c (splitCRLF s) := by
  rw [splitCRLF.eq_def]
  cases s with
  | nil => simp [consFirst]
  | cons d t =>
    by_cases hc : c = '\r'
    · by_cases hd : d = '\n'
      · exact absurd ⟨hc, by simp [hd]⟩ h
      · subst hc
        split <;> simp_all
        rename_i hEq
        obtain ⟨rfl, rfl⟩ := hEq
        rfl
    · split <;> simp_all

theorem noCRLF_cons (c : Char) (t : Str) (h : noCRLF (c :: t) = true) :
    noCRLF t = true := by
  rw [noCRLF.eq_def] at h
  cases t with
  | nil => rfl
  | cons d t2 =>
    by_cases hc : c = '\r' <;> by_cases hd : d = '\n'
    · subst hc hd; simp at h
    all_goals
      simpa using by
        revert h
        split <;> simp_all

/-- Splitting a CRLF-free line followed by a separator peels off exactly
that line. -/
theorem splitCRLF_line_append (l : Str) (rest : Str) (h : noCRLF l = true) :
    splitCRLF (l ++ crlf ++ rest) = l :: splitCRLF rest := by
  induction l with
  | nil => simp [crlf]
  | cons c l2 ih =>
    have hl2 : noCRLF l2 = true := noCRLF_cons c l2 h
    have hne : ¬(c = '\r' ∧ (l2 ++ crlf ++ rest).head? = some '\n') := by
      rintro ⟨rfl, hhd⟩
      cases l2 with
      | nil => simp [crlf] at hhd
      | cons d t =>
        simp only [List.cons_append, List.head?_cons, Option.some.injEq] at hhd
        subst hhd
        simp [noCRLF] at h
    calc splitCRLF (c :: l2 ++ crlf ++ rest)
        = consFirst c (splitCRLF (l2 ++ crlf ++ rest)) := by
          simpa using splitCRLF_cons_of_ne c (l2 ++ crlf ++ rest) hne
      _ = consFirst c (l2 :: splitCRLF rest) := by rw [ih hl2]
      _ = (c :: l2) :: splitCRLF rest := rfl

/-- Decimal digit character for a value below ten. -/
def digitChar (d : Nat) : Char :=
  match d with
  | 0 => '0' | 1 => '1' | 2 => '2' | 3 => '3' | 4 => '4'
  | 5 => '5' | 6 => '6' | 7 => '7' | 8 => '8' | _ => '9'

/-- Accumulator loop of decimal printing of a natural number (the digits of
the argument are prepended to the accumulator). -/
def natDigitsGo (n : Nat) (acc : List Char) : List Char :=
  if h : n < 10 then digitChar n :: acc
  else natDigitsGo (n / 10) (digitChar (n % 10) :: acc)
termination_by n
decreasing_by
  exact Nat.div_lt_self (by omega) (by omega)

/-- Decimal rendering of a natural number, as produced by Rust formatting. -/
def natDigits (n : Nat) : List Char := natDigitsGo n []

/-- Decimal rendering of a signed integer, as produced by Rust formatting. -/
def intDigits (i : Int) : List Char :=
  if i < 0 then '-' :: natDigits (-i).toNat else natDigits i.toNat

/-- True for the ten ASCII digit characters. -/
def isAsciiDigit (c : Char) : Bool := 48 ≤ c.toNat && c.toNat ≤ 57

/-- Digit-consuming loop of Rust integer parsing. -/
def parseNatGo (acc : Nat) : List Char → Option Nat
  | [] => some acc
  | c :: cs =>
    if isAsciiDigit c then parseNatGo (10 * acc + (c.toNat - 48)) cs else none

/-- Model of Rust unsigned-integer `from_str`: one or more ASCII digits.
Numeric range limits of the machine integer types are not modelled; every
value actually parsed in the embedded code is small. -/
def parseNatDigits (s : List Char) : Option Nat :=
  match s with
  | [] => none
  | _ => parseNatGo 0 s

/-- Model of Rust signed-integer `from_str`: an optional sign followed by
one or more ASCII digits. -/
def rustParseInt (s : List Char) : Option Int :=
  match s with
  | [] => none
  | c :: cs =>
    if c = '+' then (parseNatDigits cs).map Int.ofNat
    else if c = '-' then (parseNatDigits cs).map (fun n => -(Int.ofNat n))
    else (parseNatDigits (c :: cs)).map Int.ofNat

theorem digitChar_spec (d : Nat) (h : d < 10) :
    isAsciiDigit (digitChar d) = true ∧ (digitChar d).toNat - 48 = d ∧
      digitChar d ≠ '+' ∧ digitChar d ≠ '-' ∧ digitChar d ≠ '\r' ∧
      digitChar d ≠ '\n' := by
  interval_cases d <;> exact ⟨by decide, by decide, by decide, by decide, by decide, by decide⟩

theorem natDigitsGo_base (n : Nat) (acc : List Char) (h : n < 10) :
    natDigitsGo n acc = digitChar n :: acc := by
  rw [natDigitsGo]
  simp [h]

theorem natDigitsGo_step (n : Nat) (acc : List Char) (h : ¬n < 10) :
    natDigitsGo n acc = natDigitsGo (n / 10) (digitChar (n % 10) :: acc) := by
  rw [natDigitsGo]
  simp [h]

theorem natDigitsGo_length (n : Nat) (acc : List Char) :
    (natDigitsGo n acc).length = (natDigitsGo n []).length + acc.length := by
  induction n using Nat.strong_induction_on generalizing acc with
  | _ n ih =>
    by_cases h : n < 10
    · rw [natDigitsGo_base n acc h, natDigitsGo_base n [] h]
      simp
      omega
    · have hlt : n / 10 < n := Nat.div_lt_self (by omega) (by omega)
      rw [natDigitsGo_step n acc h, natDigitsGo_step n [] h,
          ih (n / 10) hlt (digitChar (n % 10) :: acc),
          ih (n / 10) hlt (digitChar (n % 10) :: [])]
      simp
      omega

theorem parseNatGo_natDigitsGo (n : Nat) :
    ∀ (a : Nat) (acc : List Char),
      parseNatGo a (natDigitsGo n acc) =
        parseNatGo (a * 10 ^ (natDigitsGo n []).length + n) acc := by
  induction n using Nat.strong_induction_on with
  | _ n ih =>
    intro a acc
    by_cases h : n < 10
    · rw [natDigitsGo_base n acc h, natDigitsGo_base n [] h]
      rw [parseNatGo]
      have hd := digitChar_spec n h
      simp only [hd.1, if_true, hd.2.1]
      norm_num [Nat.mul_comm]
    · have hlt : n / 10 < n := Nat.div_lt_self (by omega) (by omega)
      rw [natDigitsGo_step n acc h,
          ih (n / 10) hlt a (digitChar (n % 10) :: acc)]
      rw [parseNatGo]
      have hd := digitChar_spec (n % 10) (Nat.mod_lt n (by omega))
      simp only [hd.1, if_true, hd.2.1]
      rw [natDigitsGo_step n [] h, natDigitsGo_length (n / 10) (digitChar (n % 10) :: [])]
      have harith : 10 * (a * 10 ^ (natDigitsGo (n / 10) []).length + n / 10) + n % 10 =
          a * 10 ^ ((natDigitsGo (n / 10) []).length + [digitChar (n % 10)].length) + n := by
        simp only [List.length_cons, List.length_nil, Nat.pow_succ]
        ring_nf
        omega
      rw [harith]

theorem natDigitsGo_ne_nil (n : Nat) (acc : List Char) : natDigitsGo n acc ≠ [] := by
  by_cases h : n < 10
  · rw [natDigitsGo_base n acc h]
    simp
  · rw [natDigitsGo_step n acc h]
    have hlt : n / 10 < n := Nat.div_lt_self (by omega) (by omega)
    intro hfalse
    have := natDigitsGo_length (n / 10) (digitChar (n % 10) :: acc)
    rw [hfalse] at this
    simp at this
    omega

theorem natDigits_ne_nil (n : Nat) : natDigits n ≠ [] := natDigitsGo_ne_nil n []

theorem parseNatDigits_natDigits (n : Nat) : parseNatDigits (natDigits n) = some n := by
  rw [parseNatDigits.eq_def]
  split
  · exact absurd (by assumption) (natDigits_ne_nil n)
  · rw [natDigits, parseNatGo_natDigitsGo n 0 []]
    simp [parseNatGo]

theorem natDigitsGo_head_digit (n : Nat) :
    ∀ (acc : List Char) (c : Char), (∀ d ∈ acc, isAsciiDigit d = true) →
      (natDigitsGo n acc).head? = some c → isAsciiDigit c = true := by
  induction n using Nat.strong_induction_on with
  | _ n ih =>
    intro acc c hacc hc
    by_cases h : n < 10
    · rw [natDigitsGo_base n acc h] at hc
      simp at hc
      subst hc
      exact (digitChar_spec n h).1
    · rw [natDigitsGo_step n acc h] at hc
      refine ih (n / 10) (Nat.div_lt_self (by omega) (by omega)) _ c ?_ hc
      intro d hd
      rcases List.mem_cons.mp hd with h2 | h2
      · subst h2
        exact (digitChar_spec (n % 10) (Nat.mod_lt n (by omega))).1
      · exact hacc d h2

theorem natDigits_head_digit (n : Nat) :
    ∀ c, (natDigits n).head? = some c → isAsciiDigit c = true :=
  fun c => natDigitsGo_head_digit n [] c (by simp)

theorem rustParseInt_natDigits (n : Nat) : rustParseInt (natDigits n) = some (Int.ofNat n) := by
  rw [rustParseInt.eq_def]
  split
  · exact absurd (by assumption) (natDigits_ne_nil n)
  · rename_i c cs hcons
    have hdig : isAsciiDigit c = true := by
      exact natDigits_head_digit n c (by rw [hcons]; rfl)
    have hplus : ¬(c = '+') := by rintro rfl; simp [isAsciiDigit] at hdig
    have hminus : ¬(c = '-') := by rintro rfl; simp [isAsciiDigit] at hdig
    simp only [hplus, if_false, hminus]
    rw [← hcons, parseNatDigits_natDigits]
    rfl

theorem rustParseInt_intDigits (i : Int) : rustParseInt (intDigits i) = some i := by
  rw [intDigits]
  by_cases h : i < 0
  · simp only [h, if_true]
    rw [rustParseInt.eq_def]
    split
    · simp_all
    · rename_i c cs hcons
      rw [List.cons.injEq] at hcons
      obtain ⟨rfl, rfl⟩ := hcons
      simp only [reduceIte]
      rw [parseNatDigits_natDigits]
      simp
      omega
  · simp only [h, if_false]
    rw [rustParseInt_natDigits]
    simp
    omega

theorem natDigitsGo_all_digits (n : Nat) :
    ∀ (acc : List Char), (∀ c ∈ acc, isAsciiDigit c = true) →
      ∀ c ∈ natDigitsGo n acc, isAsciiDigit c = true := by
  induction n using Nat.strong_induction_on with
  | _ n ih =>
    intro acc hacc c hc
    by_cases h : n < 10
    · rw [natDigitsGo_base n acc h] at hc
      rcases List.mem_cons.mp hc with h2 | h2
      · subst h2; exact (digitChar_spec n h).1
      · exact hacc c h2
    · rw [natDigitsGo_step n acc h] at hc
      refine ih (n / 10) (Nat.div_lt_self (by omega) (by omega)) _ ?_ c hc
      intro d hd
      rcases List.mem_cons.mp hd with h2 | h2
      · subst h2; exact (digitChar_spec (n % 10) (Nat.mod_lt n (by omega))).1
      · exact hacc d h2

theorem natDigits_all_digits (n : Nat) :
    ∀ c ∈ natDigits n, isAsciiDigit c = true :=
  natDigitsGo_all_digits n [] (by simp)

theorem noCRLF_of_no_cr (l : Str) (h : ∀ c ∈ l, c ≠ '\r') : noCRLF l = true := by
  induction l with
  | nil => rfl
  | cons c t ih =>
    rw [noCRLF.eq_def]
    split
    · rfl
    · rename_i hEq
      exact absurd (by simpa using congrArg List.head? hEq) (by simpa using h c (by simp))
    · rename_i c2 rest hshape hEq
      rw [List.cons.injEq] at hEq
      obtain ⟨rfl, rfl⟩ := hEq
      exact ih fun x hx => h x (List.mem_cons_of_mem c hx)

theorem noCRLF_natDigits (n : Nat) : noCRLF (natDigits n) = true := by
  refine noCRLF_of_no_cr _ fun c hc => ?_
  have := natDigits_all_digits n c hc
  rintro rfl
  simp [isAsciiDigit] at this

theorem noCRLF_intDigits (i : Int) : noCRLF (intDigits i) = true := by
  refine noCRLF_of_no_cr _ fun c hc => ?_
  rw [intDigits] at hc
  intro hcr
  subst hcr
  split at hc
  · rcases List.mem_cons.mp hc with h | h
    · simp at h
    · have := natDigits_all_digits _ _ h
      simp [isAsciiDigit] at this
  · have := natDigits_all_digits _ _ hc
    simp [isAsciiDigit] at this

/-- Unicode white-space characters, as recognized by Rust `char::is_whitespace`
(the White_Space property). -/
def isRustWs (c : Char) : Bool :=
  c.toNat ∈ [9, 10, 11, 12, 13, 32, 133, 160, 5760, 8192, 8193, 8194, 8195,
    8196, 8197, 8198, 8199, 8200, 8201, 8202, 8232, 8233, 8239, 8287, 12288]

/-- Model of Rust `str::trim`: drops white space from both ends. -/
def rustTrim (l : Str) : Str :=
  ((l.dropWhile isRustWs).reverse.dropWhile isRustWs).reverse

theorem rustTrim_cons_space (msg : Str) : rustTrim (' ' :: msg) = rustTrim msg := by
  have h : isRustWs ' ' = true := by decide
  rw [rustTrim, rustTrim, List.dropWhile_cons, h]
  simp

theorem rustTrim_of_no_ws (p : Str) (h : ∀ c ∈ p, isRustWs c = false) :
    rustTrim p = p := by
  have h1 : p.dropWhile isRustWs = p := by
    cases p with
    | nil => rfl
    | cons c t =>
      rw [List.dropWhile_cons, h c (by simp)]
      simp
  rw [rustTrim, h1]
  have h2 : p.reverse.dropWhile isRustWs = p.reverse := by
    cases hrev : p.reverse with
    | nil => rfl
    | cons c t =>
      rw [List.dropWhile_cons, h c ?_]
      · simp
      · have : c ∈ p.reverse := by rw [hrev]; simp
        simpa using this
  rw [h2, List.reverse_reverse]

/-- Index of the first character satisfying the predicate (Rust `str::find`). -/
def strFind (p : Char → Bool) : Str → Option Nat
  | [] => none
  | c :: cs => if p c then some 0 else (strFind p cs).map (· + 1)

theorem strFind_append_sep (p : Str) (msg : Str)
    (h : ∀ c ∈ p, ¬(c = ' ')) :
    strFind (fun c => c = ' ') (p ++ ' ' :: msg) = some p.length := by
  induction p with
  | nil => simp [strFind]
  | cons c t ih =>
    rw [List.cons_append, strFind]
    have hc : ¬(c = ' ') := h c (by simp)
    simp only [hc, decide_eq_false, if_false]
    rw [ih fun x hx => h x (List.mem_cons_of_mem c hx)]
    simp

/-- Error-message prefix of a wire error, from core/resp.rs. -/
inductive ErrorPrefix : Type where
  | Empty : ErrorPrefix
  | Err : ErrorPrefix
  | Named : Str → ErrorPrefix
deriving DecidableEq

/-- Model of ErrorPrefix::make. -/
def ErrorPrefix.make (s : Str) : ErrorPrefix :=
  if s = ['E', 'R', 'R'] then ErrorPrefix.Err else ErrorPrefix.Named s

/-- Model of the From conversion of an ErrorPrefix into a String. -/
def prefixString : ErrorPrefix → Str
  | ErrorPrefix.Empty => []
  | ErrorPrefix.Err => ['E', 'R', 'R']
  | ErrorPrefix.Named name => name

/-- Wire message of the RESP-style protocol, from core/resp.rs. -/
inductive Message : Type where
  | SimpleString : Str → Message
  | Error : ErrorPrefix → Str → Message
  | Integer : Int → Message
  | BulkString : Str → Message
  | Array : List Message → Message
  | Nil : Message

/-- The utf-8 byte length of a string (Rust `str::len`). -/
def utf8Len (s : Str) : Nat := (s.map Char.utf8Size).sum

mutual
/-- Model of the From conversion of a Message into its wire String
(core/resp.rs, impl From of Message for String). -/
def encode : Message → Str
  | Message.SimpleString text => '+' :: (text ++ crlf)
  | Message.Error p message => '-' :: (prefixString p ++ ' ' :: message ++ crlf)
  | Message.Integer i => ':' :: (intDigits i ++ crlf)
  | Message.BulkString s => '$' :: (natDigits (utf8Len s) ++ crlf ++ s ++ crlf)
  | Message.Array elements => '*' :: (natDigits elements.length ++ crlf ++ encodeList elements)
  | Message.Nil => ['$', '-', '1'] ++ crlf

/-- Concatenation of the encodings of a list of messages (the encoder's
collect-and-join over array elements). -/
def encodeList : List Message → Str
  | [] => []
  | m :: ms => encode m ++ encodeList ms
end

/-- Model of Message::parse_error. -/
def Message.parse_error (line : Str) : Message :=
  match strFind (fun c => c = ' ') line with
  | some ix =>
    Message.Error (ErrorPrefix.make (rustTrim (line.take ix))) (rustTrim (line.drop ix))
  | none => Message.Error ErrorPrefix.Empty (rustTrim line)

/-- Model of Message::make_bulk_string. -/
def Message.make_bulk_string (size : Int) (text : Str) : Message :=
  if size = -1 then Message.Nil else Message.BulkString text

/-- Lexer token of the resumable wire parser (core/resp.rs, parser::Token). -/
inductive Token : Type where
  | Literal : Str → Token
  | Trivial : Message → Str → Token
  | BulkString : Int → Str → Token
  | Array : Int → Str → Token

/-- Model of Token::raw_image. -/
def Token.rawImage : Token → Str
  | Token.Literal image => image
  | Token.Trivial _ image => image
  | Token.BulkString _ image => image
  | Token.Array _ image => image

/-- Model of Token::produce: classify a line given its first character and
the rest.  The first character of a line is taken as a character rather
than as a byte; the two views agree on every line arising in the theorems
below, whose leading character is ASCII (on a line starting with a
multi-byte character the Rust byte slicing panics instead). -/
def Token.produce (c : Char) (suffix : Str) (tokenImage : Str) : Token :=
  if c = '+' then Token.Trivial (Message.SimpleString suffix) tokenImage
  else if c = '-' then Token.Trivial (Message.parse_error suffix) tokenImage
  else if c = ':' then
    match rustParseInt suffix with
    | none => Token.Literal tokenImage
    | some v => Token.Trivial (Message.Integer v) tokenImage
  else if c = '*' then
    match rustParseInt suffix with
    | none => Token.Literal tokenImage
    | some v => Token.Array v tokenImage
  else if c = '$' then
    match rustParseInt suffix with
    | none => Token.Literal tokenImage
    | some v => Token.BulkString v tokenImage
  else Token.Literal tokenImage

/-- Model of Token::parse. -/
def Token.parse (line : Str) : Token :=
  match line with
  | [] => Token.Literal []
  | c :: suffix => Token.produce c suffix line

theorem Token.rawImage_parse (line : Str) : (Token.parse line).rawImage = line := by
  cases line with
  | nil => rfl
  | cons c suffix =>
    rw [Token.parse, Token.produce]
    split
    · rfl
    · split
      · rfl
      · split
        · split <;> rfl
        · split
          · split <;> rfl
          · split
            · split <;> rfl
            · rfl

/-- Parse error text for an unparseable token stream. -/
def streamErr : String := "Will not parse token stream"

/-- Parse error text for an array with missing elements. -/
def arrayErr : String := "Expected more array elements"

/-- Result of parsing one message from a token stream of length n: the
parse outcome, the remaining suffix of the stream, and bookkeeping bounds
used to justify termination of the mutual recursion. -/
structure HeadOut (n : Nat) : Type where
  res : Except String Message
  rest : List Token
  hle : rest.length ≤ n
  hlt : ∀ m, res = Except.ok m → rest.length < n

/-- Result of parsing a counted sequence of array elements. -/
structure ArrOut (n : Nat) : Type where
  out : List Message
  rest : List Token
  hle : rest.length ≤ n

mutual
/-- Model of parser::parse_prefix (core/resp.rs): parse one message from
the front of a token stream. -/
def parsePrefixAux : (input : List Token) → HeadOut input.length
  | [] => ⟨Except.error streamErr, [], by simp, fun m hm => by simp at hm⟩
  | Token.Trivial parsed img :: tail =>
    ⟨Except.ok parsed, tail, by simp, fun m hm => by simp⟩
  | Token.BulkString size img :: tail =>
    if hsz : size = -1 then
      ⟨Except.ok Message.Nil, tail, by simp, fun m hm => by simp⟩
    else
      match tail with
      | contents :: tail2 =>
        ⟨Except.ok (Message.make_bulk_string size contents.rawImage), tail2,
          by simp; omega, fun m hm => by simp; omega⟩
      | [] =>
        ⟨Except.error streamErr, [Token.BulkString size img], by simp,
          fun m hm => by simp at hm⟩
  | Token.Array len img :: tail =>
    if hlen : len > -1 then
      let r := parseArrayAux len.toNat tail []
      if hq : r.out.length = len.toNat then
        ⟨Except.ok (Message.Array r.out), r.rest,
          le_trans r.hle (by simp),
          fun m hm => lt_of_le_of_lt r.hle (by simp)⟩
      else
        ⟨Except.error arrayErr, Token.Array len img :: tail, by simp,
          fun m hm => by simp at hm⟩
    else
      ⟨Except.ok Message.Nil, tail, by simp, fun m hm => by simp⟩
  | Token.Literal img :: tail =>
    ⟨Except.error streamErr, Token.Literal img :: tail, by simp,
      fun m hm => by simp at hm⟩
termination_by input => 2 * input.length
decreasing_by
  simp
  omega

/-- Model of parser::parse_array (core/resp.rs): parse count elements,
accumulating them onto output; stops early when an element fails. -/
def parseArrayAux : (count : Nat) → (input : List Token) → (output : List Message) →
    ArrOut input.length
  | 0, input, output => ⟨output, input, le_refl _⟩
  | Nat.succ k, input, output =>
    match parsePrefixAux input with
    | ⟨Except.ok element, rest, hle2, hlt2⟩ =>
      let q := parseArrayAux k rest (output ++ [element])
      ⟨q.out, q.rest, le_trans q.hle hle2⟩
    | ⟨Except.error _, _, _, _⟩ => ⟨output, input, le_refl _⟩
termination_by count input output => 2 * input.length + 1
decreasing_by
  · omega
  · have := hlt2 element rfl
    omega
end

/-- Wrapper around parsePrefixAux returning the pair of the source's
parse_prefix. -/
def parsePrefix (input : List Token) : Except String Message × List Token :=
  ((parsePrefixAux input).res, (parsePrefixAux input).rest)

/-- Model of parser::parse_message_phrase (core/resp.rs): split the phrase
on CRLF, lex each line into a token, and parse one message. -/
def parse_message_phrase (phrase : Str) : Except String Message :=
  (parsePrefix ((splitCRLF phrase).map Token.parse)).1

/-- Model of parser::parse_array at the level of the visible data (output
list and remaining tokens). -/
def parseArray (count : Nat) (input : List Token) (output : List Message) :
    List Message × List Token :=
  ((parseArrayAux count input output).out, (parseArrayAux count input output).rest)

theorem parsePrefix_trivial (parsed : Message) (img : Str) (tail : List Token) :
    parsePrefix (Token.Trivial parsed img :: tail) = (Except.ok parsed, tail) := by
  simp [parsePrefix, parsePrefixAux]

theorem parsePrefix_bulk_nil (img : Str) (tail : List Token) :
    parsePrefix (Token.BulkString (-1) img :: tail) = (Except.ok Message.Nil, tail) := by
  simp [parsePrefix, parsePrefixAux.eq_def]

theorem parsePrefix_bulk (size : Int) (img : Str) (contents : Token) (tail : List Token)
    (h : ¬(size = -1)) :
    parsePrefix (Token.BulkString size img :: contents :: tail) =
      (Except.ok (Message.make_bulk_string size contents.rawImage), tail) := by
  simp [parsePrefix, parsePrefixAux.eq_def, h]

theorem parsePrefix_array (len : Int) (img : Str) (tail : List Token) (h : len > -1) :
    parsePrefix (Token.Array len img :: tail) =
      if (parseArray len.toNat tail []).1.length = len.toNat then
        (Except.ok (Message.Array (parseArray len.toNat tail []).1),
          (parseArray len.toNat tail []).2)
      else (Except.error arrayErr, Token.Array len img :: tail) := by
  rw [parsePrefix, parsePrefixAux, parseArray]
  simp only [h, dite_true]
  split
  · simp_all
  · simp_all

theorem parseArray_zero (input : List Token) (output : List Message) :
    parseArray 0 input output = (output, input) := by
  simp [parseArray, parseArrayAux]

theorem parseArray_succ_of_ok (k : Nat) (input : List Token) (output : List Message)
    (e : Message) (rest : List Token) (h : parsePrefix input = (Except.ok e, rest)) :
    parseArray (k + 1) input output = parseArray k rest (output ++ [e]) := by
  have h1 : (parsePrefixAux input).res = Except.ok e := by
    have := congrArg Prod.fst h
    simpa [parsePrefix] using this
  have h2 : (parsePrefixAux input).rest = rest := by
    have := congrArg Prod.snd h
    simpa [parsePrefix] using this
  rcases hx : parsePrefixAux input with ⟨res0, rest0, hle0, hlt0⟩
  rw [hx] at h1 h2
  simp only [] at h1 h2
  subst h1 h2
  rw [parseArray, parseArray, parseArrayAux.eq_def]
  simp only [hx]

/-- Well-formedness of an error prefix (see wf). -/
def wfErrPrefix : ErrorPrefix → Bool
  | ErrorPrefix.Empty => false
  | ErrorPrefix.Err => true
  | ErrorPrefix.Named n =>
      decide (n ≠ ['E', 'R', 'R']) && n.all (fun c => !(isRustWs c))

/-- The first character, when present, is ASCII. -/
def headAscii : Str → Bool
  | [] => true
  | c :: _ => decide (c.toNat < 128)

mutual
/-- Well-formedness of a message for the round-trip theorem: embedded
strings contain no CR LF sequence, error prefixes are the canonical ERR or
a named word free of white space and different from the word ERR (the
empty prefix renders indistinguishably from a named prefix), error
messages carry no surrounding white space, and a bulk-string payload does
not start with a character outside ASCII (on which the Rust tokenizer
would panic slicing the first byte). -/
def wf : Message → Bool
  | Message.SimpleString s => noCRLF s
  | Message.Error p msg =>
      wfErrPrefix p && noCRLF msg && decide (rustTrim msg = msg)
  | Message.Integer _ => true
  | Message.BulkString s => noCRLF s && headAscii s
  | Message.Array xs => wfList xs
  | Message.Nil => true

/-- Well-formedness of all elements of an array. -/
def wfList : List Message → Bool
  | [] => true
  | m :: ms => wf m && wfList ms
end

mutual
/-- The CRLF-terminated lines making up the encoding of a message. -/
def linesOf : Message → List Str
  | Message.SimpleString s => [('+' :: s)]
  | Message.Error p msg => [('-' :: (prefixString p ++ ' ' :: msg))]
  | Message.Integer i => [(':' :: intDigits i)]
  | Message.BulkString s => [('$' :: natDigits (utf8Len s)), s]
  | Message.Array xs => ('*' :: natDigits xs.length) :: linesOfList xs
  | Message.Nil => [['$', '-', '1']]

/-- The lines of the encodings of a list of messages, concatenated. -/
def linesOfList : List Message → List Str
  | [] => []
  | m :: ms => linesOf m ++ linesOfList ms
end

/-- Join lines with CRLF terminators after each line. -/
def joinLines : List Str → Str
  | [] => []
  | l :: ls => l ++ crlf ++ joinLines ls

theorem joinLines_append (a b : List Str) :
    joinLines (a ++ b) = joinLines a ++ joinLines b := by
  induction a with
  | nil => simp [joinLines]
  | cons l ls ih => simp [joinLines, ih]

mutual
theorem encode_eq_joinLines : (m : Message) → encode m = joinLines (linesOf m)
  | Message.SimpleString s => by simp [encode, linesOf, joinLines]
  | Message.Error p msg => by simp [encode, linesOf, joinLines]
  | Message.Integer i => by simp [encode, linesOf, joinLines]
  | Message.BulkString s => by simp [encode, linesOf, joinLines]
  | Message.Array xs => by
      rw [encode, linesOf, joinLines, encodeList_eq_joinLines xs]
      simp
  | Message.Nil => by simp [encode, linesOf, joinLines, crlf]

theorem encodeList_eq_joinLines : (ms : List Message) →
    encodeList ms = joinLines (linesOfList ms)
  | [] => by simp [encodeList, linesOfList, joinLines]
  | m :: ms => by
      rw [encodeList, linesOfList, joinLines_append,
        encode_eq_joinLines m, encodeList_eq_joinLines ms]
end

theorem splitCRLF_joinLines (ls : List Str) (rest : Str)
    (h : ∀ l ∈ ls, noCRLF l = true) :
    splitCRLF (joinLines ls ++ rest) = ls ++ splitCRLF rest := by
  induction ls with
  | nil => simp [joinLines]
  | cons l ls ih =>
    rw [joinLines]
    have : l ++ crlf ++ joinLines ls ++ rest = l ++ crlf ++ (joinLines ls ++ rest) := by
      simp
    rw [this, splitCRLF_line_append l (joinLines ls ++ rest) (h l (by simp))]
    rw [ih fun x hx => h x (List.mem_cons_of_mem l hx)]
    simp

theorem noCRLF_cons_of (c : Char) (s : Str) (h : noCRLF s = true)
    (hne : ¬(c = '\r' ∧ s.head? = some '\n')) : noCRLF (c :: s) = true := by
  rw [noCRLF.eq_def]
  cases s with
  | nil => split <;> simp_all [noCRLF]
  | cons d t =>
    split
    · rfl
    · rename_i hEq
      rw [List.cons.injEq, List.cons.injEq] at hEq
      exact absurd ⟨hEq.1, by simp [hEq.2.1]⟩ hne
    · rename_i c2 rest hshape hEq
      rw [List.cons.injEq] at hEq
      obtain ⟨rfl, rfl⟩ := hEq
      exact h

theorem noCRLF_append_of_no_cr_left (a b : Str)
    (ha : ∀ c ∈ a, c ≠ '\r') (hb : noCRLF b = true) : noCRLF (a ++ b) = true := by
  induction a with
  | nil => simpa using hb
  | cons c t ih =>
    rw [List.cons_append]
    refine noCRLF_cons_of c (t ++ b) (ih fun x hx => ha x (List.mem_cons_of_mem c hx)) ?_
    rintro ⟨rfl, -⟩
    exact ha '\r' (by simp) rfl

theorem prefixString_no_ws (p : ErrorPrefix) (hp : wfErrPrefix p = true) :
    ∀ c ∈ prefixString p, isRustWs c = false := by
  cases p with
  | Empty => simp [wfErrPrefix] at hp
  | Err =>
    intro c hc
    have h2 : c = 'E' ∨ c = 'R' := by simpa [prefixString] using hc
    rcases h2 with rfl | rfl <;> decide
  | Named n =>
    intro c hc
    rw [wfErrPrefix, Bool.and_eq_true] at hp
    have := (List.all_eq_true.mp hp.2) c hc
    simpa using this

theorem prefixString_no_cr (p : ErrorPrefix) (hp : wfErrPrefix p = true) :
    ∀ c ∈ prefixString p, c ≠ '\r' := by
  intro c hc
  have := prefixString_no_ws p hp c hc
  rintro rfl
  simp [isRustWs] at this

theorem prefixString_no_space (p : ErrorPrefix) (hp : wfErrPrefix p = true) :
    ∀ c ∈ prefixString p, ¬(c = ' ') := by
  intro c hc
  have := prefixString_no_ws p hp c hc
  rintro rfl
  simp [isRustWs] at this

/-- Round-trip of the error-line renderer through Message::parse_error. -/
theorem parse_error_round (p : ErrorPrefix) (msg : Str)
    (hp : wfErrPrefix p = true) (hmsg : rustTrim msg = msg) :
    Message.parse_error (prefixString p ++ ' ' :: msg) = Message.Error p msg := by
  rw [Message.parse_error.eq_def,
    strFind_append_sep (prefixString p) msg (prefixString_no_space p hp)]
  simp only [List.take_left, List.drop_left]
  rw [rustTrim_of_no_ws (prefixString p) ?hnw, rustTrim_cons_space, hmsg]
  case hnw =>
    intro c hc
    simpa using prefixString_no_ws p hp c hc
  congr 1
  cases p with
  | Empty => simp [wfErrPrefix] at hp
  | Err => rfl
  | Named n =>
    rw [wfErrPrefix, Bool.and_eq_true] at hp
    have hne : ¬(n = ['E', 'R', 'R']) := by simpa using hp.1
    rw [prefixString, ErrorPrefix.make, if_neg hne]

theorem token_parse_simple (s : Str) :
    Token.parse ('+' :: s) = Token.Trivial (Message.SimpleString s) ('+' :: s) := by
  simp [Token.parse, Token.produce]

theorem token_parse_error_line (body : Str) :
    Token.parse ('-' :: body) = Token.Trivial (Message.parse_error body) ('-' :: body) := by
  simp [Token.parse, Token.produce]

theorem token_parse_integer (i : Int) :
    Token.parse (':' :: intDigits i) =
      Token.Trivial (Message.Integer i) (':' :: intDigits i) := by
  simp [Token.parse, Token.produce, rustParseInt_intDigits]

theorem token_parse_bulk_header (n : Nat) :
    Token.parse ('$' :: natDigits n) =
      Token.BulkString (Int.ofNat n) ('$' :: natDigits n) := by
  simp [Token.parse, Token.produce, rustParseInt_natDigits]

theorem token_parse_array_header (n : Nat) :
    Token.parse ('*' :: natDigits n) =
      Token.Array (Int.ofNat n) ('*' :: natDigits n) := by
  simp [Token.parse, Token.produce, rustParseInt_natDigits]

theorem token_parse_nil_line :
    Token.parse ['$', '-', '1'] = Token.BulkString (-1) ['$', '-', '1'] := by
  simp [Token.parse, Token.produce, rustParseInt, parseNatDigits, parseNatGo, isAsciiDigit]

mutual
theorem linesOf_noCRLF : (m : Message) → wf m = true →
    ∀ l ∈ linesOf m, noCRLF l = true
  | Message.SimpleString s => by
      intro h l hl
      rw [linesOf] at hl
      simp only [List.mem_singleton] at hl
      subst hl
      exact noCRLF_cons_of '+' s (by simpa [wf] using h) (by simp)
  | Message.Error p msg => by
      intro h l hl
      rw [wf, Bool.and_eq_true, Bool.and_eq_true] at h
      rw [linesOf] at hl
      simp only [List.mem_singleton] at hl
      subst hl
      refine noCRLF_cons_of '-' _ ?_ (by simp)
      refine noCRLF_append_of_no_cr_left _ _ (prefixString_no_cr p h.1.1) ?_
      exact noCRLF_cons_of ' ' msg h.1.2 (by simp)
  | Message.Integer i => by
      intro h l hl
      rw [linesOf] at hl
      simp only [List.mem_singleton] at hl
      subst hl
      exact noCRLF_cons_of ':' _ (noCRLF_intDigits i) (by simp)
  | Message.BulkString s => by
      intro h l hl
      rw [wf, Bool.and_eq_true] at h
      rw [linesOf] at hl
      rcases List.mem_cons.mp hl with h1 | h1
      · subst h1
        exact noCRLF_cons_of '$' _ (noCRLF_natDigits _) (by simp)
      · simp only [List.mem_singleton] at h1
        subst h1
        exact h.1
  | Message.Array xs => by
      intro h l hl
      rw [linesOf] at hl
      rcases List.mem_cons.mp hl with h1 | h1
      · subst h1
        exact noCRLF_cons_of '*' _ (noCRLF_natDigits _) (by simp)
      · exact linesOfList_noCRLF xs (by simpa [wf] using h) l h1
  | Message.Nil => by
      intro h l hl
      rw [linesOf] at hl
      simp only [List.mem_singleton] at hl
      subst hl
      rfl

theorem linesOfList_noCRLF : (ms : List Message) → wfList ms = true →
    ∀ l ∈ linesOfList ms, noCRLF l = true
  | [] => by intro h l hl; rw [linesOfList] at hl; simp at hl
  | m :: ms => by
      intro h l hl
      rw [wfList, Bool.and_eq_true] at h
      rw [linesOfList] at hl
      rcases List.mem_append.mp hl with h1 | h1
      · exact linesOf_noCRLF m h.1 l h1
      · exact linesOfList_noCRLF ms h.2 l h1
end

mutual
theorem roundtrip_head : (m : Message) → wf m = true → ∀ ts : List Token,
    parsePrefix ((linesOf m).map Token.parse ++ ts) = (Except.ok m, ts)
  | Message.SimpleString s => by
      intro h ts
      rw [linesOf]
      simp only [List.map_cons, List.map_nil, List.cons_append, List.nil_append]
      rw [token_parse_simple, parsePrefix_trivial]
  | Message.Error p msg => by
      intro h ts
      rw [wf, Bool.and_eq_true, Bool.and_eq_true] at h
      rw [linesOf]
      simp only [List.map_cons, List.map_nil, List.cons_append, List.nil_append]
      rw [token_parse_error_line,
        parse_error_round p msg h.1.1 (by simpa using h.2), parsePrefix_trivial]
  | Message.Integer i => by
      intro h ts
      rw [linesOf]
      simp only [List.map_cons, List.map_nil, List.cons_append, List.nil_append]
      rw [token_parse_integer, parsePrefix_trivial]
  | Message.BulkString s => by
      intro h ts
      rw [linesOf]
      simp only [List.map_cons, List.map_nil, List.cons_append, List.nil_append]
      rw [token_parse_bulk_header,
        parsePrefix_bulk (Int.ofNat (utf8Len s)) _ (Token.parse s) ts
          (by simp only [Int.ofNat_eq_coe]; omega),
        Token.rawImage_parse, Message.make_bulk_string,
        if_neg (by simp only [Int.ofNat_eq_coe]; omega)]
  | Message.Array xs => by
      intro h ts
      rw [linesOf]
      simp only [List.map_cons, List.map_append, List.cons_append]
      rw [token_parse_array_header,
        parsePrefix_array (Int.ofNat xs.length) _ _
          (by simp only [Int.ofNat_eq_coe]; omega)]
      have htn : (Int.ofNat xs.length).toNat = xs.length := by simp
      rw [htn]
      have harr := roundtrip_list xs (by simpa [wf] using h) ts []
      rw [List.nil_append] at harr
      rw [harr]
      simp
  | Message.Nil => by
      intro h ts
      rw [linesOf]
      simp only [List.map_cons, List.map_nil, List.cons_append, List.nil_append]
      rw [token_parse_nil_line, parsePrefix_bulk_nil]

theorem roundtrip_list : (ms : List Message) → wfList ms = true →
    ∀ (ts : List Token) (acc : List Message),
      parseArray ms.length ((linesOfList ms).map Token.parse ++ ts) acc = (acc ++ ms, ts)
  | [] => by
      intro h ts acc
      rw [linesOfList]
      simp [parseArray_zero]
  | m :: ms => by
      intro h ts acc
      rw [wfList, Bool.and_eq_true] at h
      rw [linesOfList]
      show parseArray (ms.length + 1) _ acc = _
      rw [List.map_append, List.append_assoc]
      rw [parseArray_succ_of_ok ms.length _ acc m ((linesOfList ms).map Token.parse ++ ts)
        (roundtrip_head m h.1 _)]
      rw [roundtrip_list ms h.2 ts (acc ++ [m])]
      simp
end

/-- Round-trip of the codec on well-formed messages: decoding the encoded
wire text of m yields m. -/
theorem parse_message_phrase_encode (m : Message) (h : wf m = true) :
    parse_message_phrase (encode m) = Except.ok m := by
  rw [parse_message_phrase, encode_eq_joinLines]
  have hsplit : splitCRLF (joinLines (linesOf m)) = linesOf m ++ [[]] := by
    have := splitCRLF_joinLines (linesOf m) [] (linesOf_noCRLF m h)
    simpa using this
  rw [hsplit, List.map_append]
  rw [roundtrip_head m h _]

/-- C1: Codec round-trip.  As stated the claim is false: a bulk string
whose payload contains a CR LF sequence does not survive the round trip,
because the line-splitting decoder takes the single line after the length
header as the payload and ignores the declared length.  Decoding the
encoding of the bulk string "a\r\nb" yields the bulk string "a". -/
theorem C1_codec_roundtrip_counterexample :
    parse_message_phrase (encode (Message.BulkString ['a', '\r', '\n', 'b'])) =
      Except.ok (Message.BulkString ['a']) ∧
      Message.BulkString ['a'] ≠ Message.BulkString ['a', '\r', '\n', 'b'] := by
  constructor
  · have henc : encode (Message.BulkString ['a', '\r', '\n', 'b']) =
        ['$', '4', '\r', '\n', 'a', '\r', '\n', 'b', '\r', '\n'] := by
      have hu : utf8Len ['a', '\r', '\n', 'b'] = 4 := by decide
      have h4 : natDigits 4 = ['4'] := by
        rw [natDigits, natDigitsGo_base 4 [] (by norm_num)]
        rfl
      rw [encode, hu, h4]
      simp [crlf]
    rw [parse_message_phrase, henc]
    have hsplit : splitCRLF ['$', '4', '\r', '\n', 'a', '\r', '\n', 'b', '\r', '\n'] =
        [['$', '4'], ['a'], ['b'], []] := by decide
    rw [hsplit]
    simp [Token.parse, Token.produce, rustParseInt, parseNatDigits, parseNatGo, isAsciiDigit,
      parsePrefix, parsePrefixAux.eq_def, Message.make_bulk_string, Token.rawImage]
  · simp

/-- C1 (amended): for every well-formed message m, where well-formed means
that no embedded string contains a CR LF sequence, error prefixes are the
canonical ERR or a white-space-free named word other than ERR, error
messages carry no surrounding white space, and bulk payloads do not start
with a character outside ASCII, decoding the encoded wire text returns m:
parse_message_phrase applied to the encoding of m yields Ok m.  This
covers nested arrays, Nil, the empty bulk string, and bulk strings whose
payload contains a dollar sign. -/
theorem C1_codec_roundtrip (m : Message) (h : wf m = true) :
    parse_message_phrase (encode m) = Except.ok m :=
  parse_message_phrase_encode m h

/-- Concrete message exercising nested arrays, Nil, the empty bulk string
and a payload containing a dollar sign, used to witness C1. -/
def c1ExampleMessage : Message :=
  Message.Array
    [Message.BulkString ['$', '5'],
     Message.Nil,
     Message.BulkString [],
     Message.Array [Message.Integer (-5), Message.SimpleString ['O', 'K']],
     Message.Error ErrorPrefix.Err ['b', 'a', 'd']]

/-- Witness for C1: the amended round-trip theorem applied to a concrete
well-formed nested message. -/
theorem C1_codec_roundtrip_witness :
    wf c1ExampleMessage = true ∧
      parse_message_phrase (encode c1ExampleMessage) = Except.ok c1ExampleMessage :=
  ⟨by decide, C1_codec_roundtrip c1ExampleMessage (by decide)⟩

section AssocMaps

variable {κ : Type} [DecidableEq κ] {β : Type}

/-- First-match lookup in an association list (model of map get). -/
def alookup : List (κ × β) → κ → Option β
  | [], _ => none
  | (k, v) :: t, key => if k = key then some v else alookup t key

/-- Insert-or-update in an association list (model of map insert / the
entry API): replaces the value at an existing key, appends otherwise. -/
def aupsert : List (κ × β) → κ → β → List (κ × β)
  | [], key, val => [(key, val)]
  | (k, v) :: t, key, val =>
    if k = key then (key, val) :: t else (k, v) :: aupsert t key val

/-- Remove the entry of a key from an association list (model of map
remove). -/
def aerase : List (κ × β) → κ → List (κ × β)
  | [], _ => []
  | (k, v) :: t, key => if k = key then t else (k, v) :: aerase t key

/-- The keys of an association list. -/
def akeys (l : List (κ × β)) : List κ := l.map Prod.fst

@[simp]
theorem alookup_nil (key : κ) : alookup ([] : List (κ × β)) key = none := rfl

theorem alookup_aupsert_self (l : List (κ × β)) (key : κ) (val : β) :
    alookup (aupsert l key val) key = some val := by
  induction l with
  | nil => simp [aupsert, alookup]
  | cons kv t ih =>
    obtain ⟨k, v⟩ := kv
    rw [aupsert]
    split
    · simp [alookup]
    · rw [alookup]
      split
      · simp_all
      · exact ih

theorem alookup_aupsert_ne (l : List (κ × β)) (key key2 : κ) (val : β)
    (h : key2 ≠ key) : alookup (aupsert l key val) key2 = alookup l key2 := by
  induction l with
  | nil => simp [aupsert, alookup, Ne.symm h]
  | cons kv t ih =>
    obtain ⟨k, v⟩ := kv
    rw [aupsert]
    split
    · rename_i hk
      subst hk
      rw [alookup, alookup]
      simp only [if_neg (Ne.symm h)]
    · rw [alookup, alookup]
      split
      · rfl
      · exact ih

theorem alookup_aerase_ne (l : List (κ × β)) (key key2 : κ) (h : key2 ≠ key) :
    alookup (aerase l key) key2 = alookup l key2 := by
  induction l with
  | nil => simp [aerase]
  | cons kv t ih =>
    obtain ⟨k, v⟩ := kv
    rw [aerase]
    split
    · rename_i hk
      subst hk
      rw [alookup]
      simp only [if_neg (Ne.symm h)]
    · rw [alookup, alookup]
      split
      · rfl
      · exact ih

theorem alookup_eq_none_of_not_mem (l : List (κ × β)) (key : κ)
    (h : key ∉ akeys l) : alookup l key = none := by
  induction l with
  | nil => rfl
  | cons kv t ih =>
    obtain ⟨k, v⟩ := kv
    rw [alookup]
    rw [akeys, List.map_cons, List.mem_cons] at h
    push_neg at h
    rw [if_neg (Ne.symm h.1)]
    exact ih (by simpa [akeys] using h.2)

theorem mem_akeys_of_alookup (l : List (κ × β)) (key : κ) (v : β)
    (h : alookup l key = some v) : key ∈ akeys l := by
  induction l with
  | nil => simp [alookup] at h
  | cons kv t ih =>
    obtain ⟨k, v2⟩ := kv
    rw [alookup] at h
    rw [akeys, List.map_cons, List.mem_cons]
    by_cases hk : k = key
    · exact Or.inl hk.symm
    · rw [if_neg hk] at h
      exact Or.inr (by simpa [akeys] using ih h)

theorem alookup_aerase_self (l : List (κ × β)) (key : κ)
    (h : (akeys l).Nodup) : alookup (aerase l key) key = none := by
  induction l with
  | nil => rfl
  | cons kv t ih =>
    obtain ⟨k, v⟩ := kv
    rw [akeys, List.map_cons, List.nodup_cons] at h
    rw [aerase]
    split
    · rename_i hk
      refine alookup_eq_none_of_not_mem t key ?_
      rw [← hk]
      simpa [akeys] using h.1
    · rw [alookup]
      rename_i hk
      rw [if_neg hk]
      exact ih h.2

theorem akeys_aerase_sublist (l : List (κ × β)) (key : κ) :
    (akeys (aerase l key)).Sublist (akeys l) := by
  induction l with
  | nil => simp [aerase]
  | cons kv t ih =>
    obtain ⟨k, v⟩ := kv
    rw [aerase]
    split
    · simp [akeys]
    · rw [akeys, List.map_cons, akeys, List.map_cons]
      exact List.Sublist.cons₂ k ih

theorem nodup_akeys_aerase (l : List (κ × β)) (key : κ)
    (h : (akeys l).Nodup) : (akeys (aerase l key)).Nodup :=
  (akeys_aerase_sublist l key).nodup h

theorem akeys_aupsert (l : List (κ × β)) (key : κ) (val : β) (k2 : κ) :
    k2 ∈ akeys (aupsert l key val) ↔ k2 ∈ akeys l ∨ k2 = key := by
  induction l with
  | nil => simp [aupsert, akeys]
  | cons kv t ih =>
    obtain ⟨k, v⟩ := kv
    rw [aupsert]
    split
    · rename_i hk
      subst hk
      simp [akeys]
      tauto
    · rw [akeys, List.map_cons, akeys, List.map_cons]
      simp only [List.mem_cons]
      rw [akeys] at ih
      tauto

theorem nodup_akeys_aupsert (l : List (κ × β)) (key : κ) (val : β)
    (h : (akeys l).Nodup) : (akeys (aupsert l key val)).Nodup := by
  induction l with
  | nil => simp [aupsert, akeys]
  | cons kv t ih =>
    obtain ⟨k, v⟩ := kv
    rw [akeys, List.map_cons, List.nodup_cons] at h
    rw [aupsert]
    split
    · rename_i hk
      subst hk
      rw [akeys, List.map_cons, List.nodup_cons]
      exact ⟨h.1, h.2⟩
    · rename_i hk
      rw [akeys, List.map_cons, List.nodup_cons]
      refine ⟨?_, ih h.2⟩
      intro hmem
      rcases (akeys_aupsert t key val k).mp hmem with h2 | h2
      · exact h.1 h2
      · exact hk h2

end AssocMaps

/-- Sorted-set score.  Rust uses f64 ordered by total_cmp; scores here are
exact rationals, which carry the same decidable linear order on the small
integer scores exercised by the claims (NaN and signed zero do not occur
in them). -/
abbrev Score : Type := Rat

/-- Insert into a BTreeSet of members: adds the member when absent. -/
def bucketInsert (m : Str) (l : List Str) : List Str :=
  if m ∈ l then l else m :: l

/-- The two mutually indexed views of one sorted set
(core/domain/sorted_sets.rs, struct OrderedScores). -/
structure OrderedScores : Type where
  member_to_score : List (Str × Score)
  score_to_members : List (Score × List Str)

/-- Model of OrderedScores::new. -/
def OrderedScores.new : OrderedScores := ⟨[], []⟩

/-- Model of OrderedScores::merge (core/domain/sorted_sets.rs).  The two
panic branches are modelled by none.  In the occupied branch the member is
removed from its current bucket (dropping the bucket when it empties), the
member's score is updated, and the member is added to the bucket of the
new score; in the vacant branch the member is recorded and added to the
bucket of the new score. -/
def OrderedScores.merge (os : OrderedScores) (new_score : Score) (member : Str) :
    Option OrderedScores :=
  match alookup os.member_to_score member with
  | some current_score =>
    match alookup os.score_to_members current_score with
    | some members =>
      let members2 := members.erase member
      let sm1 :=
        if member ∈ members ∧ members2 = [] then aerase os.score_to_members current_score
        else aupsert os.score_to_members current_score members2
      let m2 := aupsert os.member_to_score member new_score
      let sm2 :=
        match alookup sm1 new_score with
        | some e => aupsert sm1 new_score (bucketInsert member e)
        | none => aupsert sm1 new_score [member]
      some ⟨m2, sm2⟩
    | none => none
  | none =>
    let m2 := aupsert os.member_to_score member new_score
    let sm2 :=
      match alookup os.score_to_members new_score with
      | some e => aupsert os.score_to_members new_score (bucketInsert member e)
      | none => aupsert os.score_to_members new_score [member]
    some ⟨m2, sm2⟩

/-- Mutual consistency of the two sorted-set views: keys are unambiguous,
every recorded member sits in the bucket of its recorded score, and every
bucket is non-empty, duplicate-free, and lists only members recorded with
exactly that score (so a member occurs in exactly one bucket, once). -/
def scoresInv (os : OrderedScores) : Prop :=
  (akeys os.member_to_score).Nodup ∧
  (akeys os.score_to_members).Nodup ∧
  (∀ m s, alookup os.member_to_score m = some s →
    ∃ l, alookup os.score_to_members s = some l ∧ m ∈ l) ∧
  (∀ s l, alookup os.score_to_members s = some l →
    l ≠ [] ∧ l.Nodup ∧ ∀ m ∈ l, alookup os.member_to_score m = some s)

theorem bucketInsert_nodup (m : Str) (l : List Str) (h : l.Nodup) :
    (bucketInsert m l).Nodup := by
  rw [bucketInsert]
  split
  · exact h
  · exact List.nodup_cons.mpr ⟨by assumption, h⟩

theorem mem_bucketInsert (m x : Str) (l : List Str) :
    x ∈ bucketInsert m l ↔ x = m ∨ x ∈ l := by
  rw [bucketInsert]
  split
  · rename_i hm
    constructor
    · exact Or.inr
    · rintro (rfl | hx)
      · exact hm
      · exact hx
  · simp

/-- The final step of merge: adding the member to the bucket of its new
score preserves the invariant, given that the member is recorded with the
new score, no bucket mentions the member, and both views are otherwise
consistent. -/
theorem bucket_step_inv (sm : List (Score × List Str)) (m2 : List (Str × Score))
    (sc : Score) (mem : Str)
    (hnodupS : (akeys sm).Nodup)
    (hnodupM : (akeys m2).Nodup)
    (hbuckets : ∀ s l, alookup sm s = some l →
      l ≠ [] ∧ l.Nodup ∧ mem ∉ l ∧ ∀ x ∈ l, alookup m2 x = some s)
    (hcover : ∀ x s2, alookup m2 x = some s2 → x ≠ mem →
      ∃ l, alookup sm s2 = some l ∧ x ∈ l)
    (hmem : alookup m2 mem = some sc) :
    scoresInv ⟨m2,
      match alookup sm sc with
      | some e => aupsert sm sc (bucketInsert mem e)
      | none => aupsert sm sc [mem]⟩ := by
  refine ⟨hnodupM, ?_, ?_, ?_⟩
  · cases hsm : alookup sm sc with
    | some e => exact nodup_akeys_aupsert sm sc _ hnodupS
    | none => exact nodup_akeys_aupsert sm sc _ hnodupS
  · intro x s2 hx
    by_cases hxm : x = mem
    · subst hxm
      have hs2 : s2 = sc := by
        rw [hmem] at hx
        exact (Option.some.injEq _ _).mp hx.symm
      subst hs2
      cases hsm : alookup sm s2 with
      | some e =>
        refine ⟨bucketInsert x e, ?_, ?_⟩
        · simp only [hsm]
          exact alookup_aupsert_self sm s2 _
        · rw [mem_bucketInsert]
          exact Or.inl rfl
      | none =>
        refine ⟨[x], ?_, by simp⟩
        simp only [hsm]
        exact alookup_aupsert_self sm s2 _
    · obtain ⟨l, hl, hxl⟩ := hcover x s2 hx hxm
      by_cases hs2 : s2 = sc
      · subst hs2
        cases hsm : alookup sm s2 with
        | some e =>
          have he : e = l := by rw [hsm] at hl; exact (Option.some.injEq _ _).mp hl
          subst he
          refine ⟨bucketInsert mem e, alookup_aupsert_self sm s2 _, ?_⟩
          rw [mem_bucketInsert]
          exact Or.inr hxl
        | none => rw [hsm] at hl; simp at hl
      · cases hsm : alookup sm sc with
        | some e =>
          refine ⟨l, ?_, hxl⟩
          rw [alookup_aupsert_ne sm sc s2 _ hs2]
          exact hl
        | none =>
          refine ⟨l, ?_, hxl⟩
          rw [alookup_aupsert_ne sm sc s2 _ hs2]
          exact hl
  · intro s2 l2 hl2
    by_cases hs2 : s2 = sc
    · subst hs2
      cases hsm : alookup sm s2 with
      | some e =>
        rw [hsm, alookup_aupsert_self] at hl2
        obtain ⟨hne, hnd, hmemnot, hall⟩ := hbuckets s2 e hsm
        have hl2e : l2 = bucketInsert mem e := (Option.some.injEq _ _).mp hl2.symm
        subst hl2e
        refine ⟨?_, bucketInsert_nodup mem e hnd, ?_⟩
        · rw [bucketInsert]
          split
          · exact hne
          · simp
        · intro x hx
          rcases (mem_bucketInsert mem x e).mp hx with rfl | hxe
          · exact hmem
          · exact hall x hxe
      | none =>
        rw [hsm, alookup_aupsert_self] at hl2
        have hl2e : l2 = [mem] := (Option.some.injEq _ _).mp hl2.symm
        subst hl2e
        refine ⟨by simp, by simp, ?_⟩
        intro x hx
        rw [List.mem_singleton] at hx
        subst hx
        exact hmem
    · have hl2old : alookup sm s2 = some l2 := by
        cases hsm : alookup sm sc with
        | some e =>
          rw [hsm, alookup_aupsert_ne sm sc s2 _ hs2] at hl2
          exact hl2
        | none =>
          rw [hsm, alookup_aupsert_ne sm sc s2 _ hs2] at hl2
          exact hl2
      obtain ⟨hne, hnd, hmemnot, hall⟩ := hbuckets s2 l2 hl2old
      exact ⟨hne, hnd, hall⟩

theorem merge_preserves_inv (os : OrderedScores) (hinv : scoresInv os)
    (sc : Score) (mem : Str) :
    ∃ os2, os.merge sc mem = some os2 ∧ scoresInv os2 := by
  obtain ⟨hnm, hns, hfwd, hbwd⟩ := hinv
  cases hcur : alookup os.member_to_score mem with
  | some cur =>
    obtain ⟨membersl, hbkt, hmemin⟩ := hfwd mem cur hcur
    obtain ⟨hneB, hndB, hallB⟩ := hbwd cur membersl hbkt
    by_cases hcaseE : mem ∈ membersl ∧ membersl.erase mem = []
    · -- the bucket of the current score empties and is removed
      have hmerge : os.merge sc mem = some
          (OrderedScores.mk (aupsert os.member_to_score mem sc)
            (match alookup (aerase os.score_to_members cur) sc with
             | some e => aupsert (aerase os.score_to_members cur) sc (bucketInsert mem e)
             | none => aupsert (aerase os.score_to_members cur) sc [mem])) := by
        simp only [OrderedScores.merge, hcur, hbkt, if_pos hcaseE]
      refine ⟨_, hmerge, bucket_step_inv _ _ sc mem
        (nodup_akeys_aerase _ _ hns) (nodup_akeys_aupsert _ _ _ hnm) ?_ ?_
        (alookup_aupsert_self _ _ _)⟩
      · intro s l hl
        have hscur : s ≠ cur := by
          rintro rfl
          rw [alookup_aerase_self _ _ hns] at hl
          simp at hl
        rw [alookup_aerase_ne _ _ _ hscur] at hl
        obtain ⟨hne2, hnd2, hall2⟩ := hbwd s l hl
        refine ⟨hne2, hnd2, ?_, ?_⟩
        · intro hmeml
          have hxx := hall2 mem hmeml
          rw [hcur] at hxx
          injection hxx with hxx2
          exact hscur hxx2.symm
        · intro x hx
          have hxs := hall2 x hx
          have hxmem : x ≠ mem := by
            rintro rfl
            rw [hcur] at hxs
            injection hxs with hxx2
            exact hscur hxx2.symm
          rw [alookup_aupsert_ne _ _ _ _ hxmem]
          exact hxs
      · intro x s2 hx hxmem
        rw [alookup_aupsert_ne _ _ _ _ hxmem] at hx
        obtain ⟨l, hl, hxl⟩ := hfwd x s2 hx
        have hs2cur : s2 ≠ cur := by
          rintro rfl
          rw [hbkt] at hl
          injection hl with hl2
          subst hl2
          have : x ∈ membersl.erase mem := (List.Nodup.mem_erase_iff hndB).mpr ⟨hxmem, hxl⟩
          rw [hcaseE.2] at this
          simp at this
        refine ⟨l, ?_, hxl⟩
        rw [alookup_aerase_ne _ _ _ hs2cur]
        exact hl
    · -- the bucket of the current score keeps other members
      have hne2' : membersl.erase mem ≠ [] := fun hh => hcaseE ⟨hmemin, hh⟩
      have hmerge : os.merge sc mem = some
          (OrderedScores.mk (aupsert os.member_to_score mem sc)
            (match alookup (aupsert os.score_to_members cur (membersl.erase mem)) sc with
             | some e => aupsert (aupsert os.score_to_members cur (membersl.erase mem)) sc
                 (bucketInsert mem e)
             | none => aupsert (aupsert os.score_to_members cur (membersl.erase mem)) sc
                 [mem])) := by
        simp only [OrderedScores.merge, hcur, hbkt, if_neg hcaseE]
      refine ⟨_, hmerge, bucket_step_inv _ _ sc mem
        (nodup_akeys_aupsert _ _ _ hns) (nodup_akeys_aupsert _ _ _ hnm) ?_ ?_
        (alookup_aupsert_self _ _ _)⟩
      · intro s l hl
        by_cases hscur : s = cur
        · subst hscur
          rw [alookup_aupsert_self] at hl
          injection hl with hl2
          subst hl2
          refine ⟨hne2', List.Nodup.erase mem hndB, ?_, ?_⟩
          · intro hmeml
            exact ((List.Nodup.mem_erase_iff hndB).mp hmeml).1 rfl
          · intro x hx
            obtain ⟨hxmem, hxl⟩ := (List.Nodup.mem_erase_iff hndB).mp hx
            rw [alookup_aupsert_ne _ _ _ _ hxmem]
            exact hallB x hxl
        · rw [alookup_aupsert_ne _ _ _ _ hscur] at hl
          obtain ⟨hne3, hnd3, hall3⟩ := hbwd s l hl
          refine ⟨hne3, hnd3, ?_, ?_⟩
          · intro hmeml
            have hxx := hall3 mem hmeml
            rw [hcur] at hxx
            injection hxx with hxx2
            exact hscur hxx2.symm
          · intro x hx
            have hxs := hall3 x hx
            have hxmem : x ≠ mem := by
              rintro rfl
              rw [hcur] at hxs
              injection hxs with hxx2
              exact hscur hxx2.symm
            rw [alookup_aupsert_ne _ _ _ _ hxmem]
            exact hxs
      · intro x s2 hx hxmem
        rw [alookup_aupsert_ne _ _ _ _ hxmem] at hx
        obtain ⟨l, hl, hxl⟩ := hfwd x s2 hx
        by_cases hs2cur : s2 = cur
        · subst hs2cur
          rw [hbkt] at hl
          injection hl with hl2
          subst hl2
          refine ⟨membersl.erase mem, alookup_aupsert_self _ _ _, ?_⟩
          exact (List.Nodup.mem_erase_iff hndB).mpr ⟨hxmem, hxl⟩
        · refine ⟨l, ?_, hxl⟩
          rw [alookup_aupsert_ne _ _ _ _ hs2cur]
          exact hl
  | none =>
    have hmerge : os.merge sc mem = some
        (OrderedScores.mk (aupsert os.member_to_score mem sc)
          (match alookup os.score_to_members sc with
           | some e => aupsert os.score_to_members sc (bucketInsert mem e)
           | none => aupsert os.score_to_members sc [mem])) := by
      simp only [OrderedScores.merge, hcur]
    refine ⟨_, hmerge, bucket_step_inv _ _ sc mem hns
      (nodup_akeys_aupsert _ _ _ hnm) ?_ ?_ (alookup_aupsert_self _ _ _)⟩
    · intro s l hl
      obtain ⟨hne2, hnd2, hall2⟩ := hbwd s l hl
      have hmemnot : mem ∉ l := by
        intro hmeml
        have hxx := hall2 mem hmeml
        rw [hcur] at hxx
        simp at hxx
      refine ⟨hne2, hnd2, hmemnot, ?_⟩
      intro x hx
      have hxmem : x ≠ mem := fun hh => hmemnot (hh ▸ hx)
      rw [alookup_aupsert_ne _ _ _ _ hxmem]
      exact hall2 x hx
    · intro x s2 hx hxmem
      rw [alookup_aupsert_ne _ _ _ _ hxmem] at hx
      exact hfwd x s2 hx

/-- One merge step in a sequence of merges (propagating a panic). -/
def mergeStep (acc : Option OrderedScores) (p : Score × Str) : Option OrderedScores :=
  acc.bind fun os => os.merge p.1 p.2

/-- The OrderedScores value reached from new by a finite sequence of
merge(score, member) calls; none when some call panics. -/
def mergeAll (ops : List (Score × Str)) : Option OrderedScores :=
  ops.foldl mergeStep (some OrderedScores.new)

theorem scoresInv_new : scoresInv OrderedScores.new := by
  refine ⟨by simp [OrderedScores.new, akeys], by simp [OrderedScores.new, akeys], ?_, ?_⟩
  · intro m s h
    simp [OrderedScores.new] at h
  · intro s l h
    simp [OrderedScores.new] at h

theorem mergeAll_inv_aux (ops : List (Score × Str)) :
    ∀ start : OrderedScores, scoresInv start →
      ∃ os, ops.foldl mergeStep (some start) = some os ∧ scoresInv os := by
  induction ops with
  | nil =>
    intro start h
    exact ⟨start, rfl, h⟩
  | cons p t ih =>
    intro start h
    obtain ⟨os1, hm, hinv1⟩ := merge_preserves_inv start h p.1 p.2
    rw [List.foldl_cons]
    have hstep : mergeStep (some start) p = some os1 := by
      rw [mergeStep, Option.some_bind, hm]
    rw [hstep]
    exact ih os1 hinv1

/-- C4: for every OrderedScores value reachable from new by a finite
sequence of merge calls, the merges all succeed (the panic branches are
never reached) and the reached value satisfies the two-view consistency
invariant: member keys and score keys are unambiguous, each recorded
member lies in the bucket keyed by its recorded score, and every bucket is
non-empty, duplicate-free, and contains only members recorded with that
score — so each member occurs in exactly one bucket, exactly once. -/
theorem C4_ordered_scores_invariant (ops : List (Score × Str)) :
    ∃ os, mergeAll ops = some os ∧ scoresInv os :=
  mergeAll_inv_aux ops OrderedScores.new scoresInv_new

/-- XX / NX option of ZADD (datatype/sorted_sets.rs, enum Only). -/
inductive Only : Type where
  | UpdateExisting : Only
  | AddNew : Only
deriving DecidableEq

/-- GT / LT option of ZADD (enum When). -/
inductive When : Type where
  | LessThan : When
  | GreaterThan : When
deriving DecidableEq

/-- Combined merge policy of ZADD options (enum MergePolicy). -/
inductive MergePolicy : Type where
  | Require : Only → MergePolicy
  | UpdateExisting : When → MergePolicy
  | AddOrUpdate : When → MergePolicy
  | Default : MergePolicy
  | Diverged : String → MergePolicy
deriving DecidableEq

/-- CH flag of ZADD (enum Return). -/
inductive Return : Type where
  | Added : Return
  | Changed : Return
deriving DecidableEq

/-- Model of Return::parse. -/
def Return.parse (word : Str) : Option Return :=
  if word = "CH".toList ∨ word = "ch".toList then some Return.Changed else none

/-- Model of Only::parse. -/
def Only.parse (word : Str) : Option Only :=
  if word = "XX".toList ∨ word = "xx".toList then some Only.UpdateExisting
  else if word = "NX".toList ∨ word = "nx".toList then some Only.AddNew
  else none

/-- Model of When::parse. -/
def When.parse (word : Str) : Option When :=
  if word = "GT".toList ∨ word = "gt".toList then some When.GreaterThan
  else if word = "LT".toList ∨ word = "lt".toList then some When.LessThan
  else none

/-- Parsed options of a ZADD command (struct AddOptions). -/
structure AddOptions : Type where
  merge : MergePolicy
  and_return : Return
deriving DecidableEq

/-- Model of AddOptions::default. -/
def AddOptions.default : AddOptions := ⟨MergePolicy.Default, Return.Added⟩

/-- Model of AddOptions::return_default. -/
def AddOptions.return_default (m : MergePolicy) : AddOptions := ⟨m, Return.Added⟩

/-- Model of AddOptions::return_changed. -/
def AddOptions.return_changed (m : MergePolicy) : AddOptions := ⟨m, Return.Changed⟩

/-- Model of AddOptions::select_return. -/
def AddOptions.select_return (p q : AddOptions) (m : MergePolicy) : AddOptions :=
  if p.and_return = Return.Changed ∨ q.and_return = Return.Changed then
    ⟨m, Return.Changed⟩
  else ⟨m, Return.Added⟩

/-- Model of AddOptions::is_recognized. -/
def AddOptions.is_recognized (word : Str) : Bool :=
  (When.parse word).isSome || (Only.parse word).isSome || (Return.parse word).isSome

/-- Model of AddOptions::produce_option. -/
def AddOptions.produce_option (word : Str) : Option AddOptions :=
  ((When.parse word).map fun w => AddOptions.return_default (MergePolicy.AddOrUpdate w)).orElse
    fun _ =>
      ((Only.parse word).map fun o => AddOptions.return_default (MergePolicy.Require o)).orElse
        fun _ =>
          (Return.parse word).map fun _ => AddOptions.return_changed MergePolicy.Default

/-- Model of AddOptions::combine_options: XX plus GT or LT combine into
UpdateExisting, any other pair diverges. -/
def AddOptions.combine_options (lhs rhs : AddOptions) : AddOptions :=
  match lhs.merge, rhs.merge with
  | MergePolicy.AddOrUpdate w, MergePolicy.Require Only.UpdateExisting =>
      AddOptions.select_return lhs rhs (MergePolicy.UpdateExisting w)
  | MergePolicy.Require Only.UpdateExisting, MergePolicy.AddOrUpdate w =>
      AddOptions.select_return lhs rhs (MergePolicy.UpdateExisting w)
  | _, _ => AddOptions.return_default (MergePolicy.Diverged "bad options")

/-- Model of AddOptions::parse (datatype/sorted_sets.rs).  The option
prefix is read with Iterator::take_while, which consumes the first word
failing the predicate from the underlying iterator; the remaining words
are therefore those after the first unrecognized word. -/
def AddOptions.parse (phrase : List Str) : AddOptions × List Str :=
  let recognized := phrase.takeWhile AddOptions.is_recognized
  let rest := (phrase.dropWhile AddOptions.is_recognized).tail
  let opts := recognized.filterMap AddOptions.produce_option
  let option :=
    match opts with
    | [] => AddOptions.default
    | o :: os => os.foldl AddOptions.combine_options o
  (option, rest)

/-- Typed sorted-set command (enum SortedSetApi). -/
inductive SortedSetApi : Type where
  | Add : Str → List (Rat × Str) → AddOptions → SortedSetApi
  | RangeByRank : Str → Nat → Nat → SortedSetApi
  | RangeByScore : Str → Rat → Rat → SortedSetApi
  | Rank : Str → Str → SortedSetApi
  | Score : Str → Str → SortedSetApi
deriving DecidableEq

/-- Model of Message::try_as_bulk_string_content. -/
def Message.try_as_bulk_string_content : Message → Option Str
  | Message.BulkString s => some s
  | _ => none

/-- Model of Message::as_array_contents. -/
def Message.as_array_contents : Message → Option (List Message)
  | Message.Array bs => some bs
  | _ => none

/-- Model of Message::try_as_bulk_array. -/
def Message.try_as_bulk_array (m : Message) : Option (List Str) :=
  m.as_array_contents.bind fun bs => bs.mapM Message.try_as_bulk_string_content

/-- Model of the fragment of Rust f64 from_str used by the classifier: an
optional sign, one or more digits, and an optional fractional part.  The
special forms (inf, nan, exponents, forms with a bare trailing or leading
dot) are outside the model; every score in the claims is a small integer
literal. -/
def parseScoreUnsigned (s : Str) : Option Score :=
  let intPart := s.takeWhile isAsciiDigit
  let rest := s.dropWhile isAsciiDigit
  if intPart = [] then none
  else
    match parseNatGo 0 intPart with
    | none => none
    | some ip =>
      match rest with
      | [] => some (ip : Rat)
      | '.' :: frac =>
        if frac ≠ [] ∧ frac.all isAsciiDigit then
          match parseNatGo 0 frac with
          | none => none
          | some fp => some ((ip : Rat) + (fp : Rat) / ((10 : Rat) ^ frac.length))
        else none
      | _ => none

/-- Signed score parsing (see parseScoreUnsigned). -/
def parseScore (s : Str) : Option Score :=
  match s with
  | '+' :: r => parseScoreUnsigned r
  | '-' :: r => (parseScoreUnsigned r).map Neg.neg
  | _ => parseScoreUnsigned s

/-- Overlapping windows of width two (Rust slice::windows(2)); a slice
shorter than two yields no windows. -/
def windowsPairs {α : Type} : List α → List (α × α)
  | x :: y :: rest => (x, y) :: windowsPairs (y :: rest)
  | _ => []

/-- Classifier failure for arguments that do not parse (Command::decode on
f64, error text of Rust ParseFloatError). -/
def decodeScore (image : Str) : Except String Score :=
  match parseScore image with
  | some v => Except.ok v
  | none => Except.error "invalid float literal"

/-- Classifier failure for arguments that do not parse as an unsigned
integer. -/
def decodeNat (image : Str) : Except String Nat :=
  match parseNatDigits image with
  | some v => Except.ok v
  | none => Except.error "invalid digit found in string"

/-- Error of Command::wrong_category. -/
def wrongCategory : String := "Unknown or incomplete command."

/-- Model of the TryFrom conversion of a Message into a SortedSetApi
(commands.rs).  The ZADD arm parses the option prefix with
AddOptions::parse and then reads the (score, member) pairs from
entries.windows(2) - the overlapping windows of the remaining words. -/
def sortedSetTryFrom (command : Message) : Except String SortedSetApi :=
  match command.try_as_bulk_array with
  | some (cmd :: key :: args) =>
    if cmd = "ZADD".toList ∨ cmd = "zadd".toList then
      let po := AddOptions.parse args
      match (windowsPairs po.2).mapM
          (fun p => (decodeScore p.1).map fun sc => (sc, p.2)) with
      | Except.ok entries => Except.ok (SortedSetApi.Add key entries po.1)
      | Except.error e => Except.error e
    else
      match args with
      | [start, stop, byscore] =>
        if (cmd = "ZRANGE".toList ∨ cmd = "zrange".toList) ∧
            (byscore = "BYSCORE".toList ∨ byscore = "byscore".toList) then
          (decodeScore start).bind fun lo =>
            (decodeScore stop).map fun hi => SortedSetApi.RangeByScore key lo hi
        else Except.error wrongCategory
      | [start, stop] =>
        if cmd = "ZRANGE".toList ∨ cmd = "zrange".toList then
          (decodeNat start).bind fun a =>
            (decodeNat stop).map fun b => SortedSetApi.RangeByRank key a b
        else Except.error wrongCategory
      | [member] =>
        if cmd = "ZRANK".toList ∨ cmd = "zrank".toList then
          Except.ok (SortedSetApi.Rank key member)
        else if cmd = "ZSCORE".toList ∨ cmd = "zscore".toList then
          Except.ok (SortedSetApi.Score key member)
        else Except.error wrongCategory
      | _ => Except.error wrongCategory
  | _ => Except.error wrongCategory

/-- Model of SortedSet::add for core::Domain
(core/domain/sorted_sets.rs): merges every entry into the set under the
key (creating it when absent), incrementing the count once per entry; the
options parameter is ignored by the source (it is bound as an unused
underscore parameter).  none models a panic inside merge. -/
def sortedSetAdd (sorted_sets : List (Str × OrderedScores)) (key : Str)
    (entries : List (Score × Str)) (_options : AddOptions) :
    Option (List (Str × OrderedScores) × Nat) :=
  match alookup sorted_sets key with
  | some xs =>
    match entries.foldl mergeStep (some xs) with
    | some xs2 => some (aupsert sorted_sets key xs2, entries.length)
    | none => none
  | none =>
    match entries.foldl mergeStep (some OrderedScores.new) with
    | some xs2 => some (aupsert sorted_sets key xs2, entries.length)
    | none => none

deriving instance DecidableEq for OrderedScores

instance {ε α : Type} [DecidableEq ε] [DecidableEq α] : DecidableEq (Except ε α) := fun x y =>
  match x, y with
  | Except.ok a, Except.ok b =>
    if h : a = b then isTrue (by rw [h]) else
      isFalse (by intro hx; injection hx; contradiction)
  | Except.error a, Except.error b =>
    if h : a = b then isTrue (by rw [h]) else
      isFalse (by intro hx; injection hx; contradiction)
  | Except.ok _, Except.error _ => isFalse fun hx => Except.noConfusion hx
  | Except.error _, Except.ok _ => isFalse fun hx => Except.noConfusion hx

/-- C2: the claim says the classifier turns a ZADD bulk array with two or
more (score, member) pairs into SortedSetApi::Add holding exactly those
pairs and that dispatching it on an absent key answers the number of
pairs, in particular ZADD k 1 a 2 b 3 c classifies successfully and
answers Integer 3.  The code disagrees: AddOptions::parse consumes the
first non-option word ("1") through Iterator::take_while, leaving the
words a 2 b 3 c, and the classifier then pairs the remaining words with
the overlapping entries.windows(2), so the first window ("a", "2") fails
the f64 parse and the whole classification returns an InvalidInput error
instead of an Add command.  This theorem evaluates the embedded code at
the failing input. -/
theorem C2_zadd_classifier_failure :
    AddOptions.parse (["1", "a", "2", "b", "3", "c"].map String.toList) =
      (AddOptions.default, ["a", "2", "b", "3", "c"].map String.toList) ∧
    sortedSetTryFrom (Message.Array
      (["ZADD", "k", "1", "a", "2", "b", "3", "c"].map
        (fun s => Message.BulkString s.toList))) =
      Except.error "invalid float literal" := by
  constructor
  · decide
  · decide

/-- C3: the claim says add with XX and GT and a not-greater score leaves
the member's score unchanged and contributes 0 to the count, and that
without CH the return value counts only newly added members.  The code
disagrees: SortedSet::add for core::Domain ignores its options parameter
(bound as an unused underscore) and unconditionally merges every entry,
incrementing the count once per entry.  Starting from an empty store,
adding (1, a) under key k and then adding (0, a) with XX GT returns count
1 (not 0) and overwrites a's score with 0 (not keeping 1).  This theorem
evaluates the embedded code at the failing input. -/
theorem C3_add_ignores_options :
    sortedSetAdd [] "k".toList [((1 : Rat), "a".toList)] AddOptions.default =
      some ([("k".toList, ⟨[("a".toList, (1 : Rat))], [((1 : Rat), ["a".toList])]⟩)], 1) ∧
    sortedSetAdd [("k".toList, ⟨[("a".toList, (1 : Rat))], [((1 : Rat), ["a".toList])]⟩)]
      "k".toList [((0 : Rat), "a".toList)]
      ⟨MergePolicy.UpdateExisting When.GreaterThan, Return.Added⟩ =
      some ([("k".toList, ⟨[("a".toList, (0 : Rat))], [((0 : Rat), ["a".toList])]⟩)], 1) := by
  constructor
  · decide
  · decide

/-- Rust integer remainder: truncated (sign of the dividend), and a panic
(none) on a zero divisor. -/
def rustRemOpt (a b : Int) : Option Int :=
  if b = 0 then none else some (Int.tmod a b)

/-- Rust cast of a (sign-extended) machine integer to usize: reduction
modulo 2 to the 64. -/
def asUsize (i : Int) : Nat := (i % (2 ^ 64 : Int)).toNat

/-- Model of Lists::length for core::Domain (datatype/lists.rs): 0 when
the key is absent. -/
def listsLength (lists : List (Str × List Str)) (key : Str) : Nat :=
  ((alookup lists key).getD []).length

/-- Model of Lists::range for core::Domain (datatype/lists.rs).  Returns
none where the Rust code panics: on the remainder by a zero length (empty
or absent list with a negative start, a defect the source itself notes in
a comment) and on slicing beyond the end of the backing VecDeque. -/
def listsRange (lists : List (Str × List Str)) (key : Str) (start stop : Int) :
    Option (List Str) :=
  let length : Int := (listsLength lists key : Int)
  if start ≥ length then some []
  else
    match rustRemOpt (start + length) length with
    | none => none
    | some r1 =>
      let effective_start := asUsize r1
      let stopO : Option Nat :=
        if stop < 0 then (rustRemOpt (stop + length) length).map fun r => asUsize (r + 1)
        else some (min stop length).toNat
      match stopO with
      | none => none
      | some effective_stop =>
        if effective_start ≤ effective_stop then
          let l := (alookup lists key).getD []
          if effective_stop ≤ l.length then
            some ((l.drop effective_start).take (effective_stop - effective_start))
          else none
        else some []

/-- The nine-element list of the strings 1 through 9 under key k. -/
def nineList : List (Str × List Str) :=
  [("k".toList, ["1", "2", "3", "4", "5", "6", "7", "8", "9"].map String.toList)]

/-- C5: on the list built by appending the strings 1 through 9 in order
under key k, range satisfies every row of the specification's table:
range(k,0,100) and range(k,0,-1) are the whole list, range(k,0,-2) is 1
through 8, range(k,5,-2) is 6 7 8, range(k,15,-2) is empty, range(k,0,1)
is the singleton 1, and range(k,1,1) is empty. -/
theorem C5_list_range_table :
    listsRange nineList "k".toList 0 100 =
      some (["1", "2", "3", "4", "5", "6", "7", "8", "9"].map String.toList) ∧
    listsRange nineList "k".toList 0 (-1) =
      some (["1", "2", "3", "4", "5", "6", "7", "8", "9"].map String.toList) ∧
    listsRange nineList "k".toList 0 (-2) =
      some (["1", "2", "3", "4", "5", "6", "7", "8"].map String.toList) ∧
    listsRange nineList "k".toList 5 (-2) =
      some (["6", "7", "8"].map String.toList) ∧
    listsRange nineList "k".toList 15 (-2) = some [] ∧
    listsRange nineList "k".toList 0 1 = some (["1"].map String.toList) ∧
    listsRange nineList "k".toList 1 1 = some [] := by
  refine ⟨by decide, by decide, by decide, by decide, by decide, by decide, by decide⟩

/-- C6: the claim says range on an absent key or empty list evaluates
totally and returns the empty sequence for all i32 endpoints.  The code
disagrees for negative starts: with length 0 the expression
(start + length) % length divides by zero and panics, as the source notes
in its own comment.  Both the absent-key case and the present-but-empty
case panic at start = -1; non-negative starts do return the empty
sequence. -/
theorem C6_list_range_empty_panics :
    listsRange [] "k".toList (-1) 0 = none ∧
    listsRange [("k".toList, [])] "k".toList (-1) 0 = none ∧
    listsRange [] "k".toList 0 0 = some [] := by
  refine ⟨by decide, by decide, by decide⟩

/-- Ordered-map insert (model of BTreeMap insert for instant keys):
replaces the value at an existing key, otherwise inserts in key order. -/
def sinsert {β : Type} : List (Nat × β) → Nat → β → List (Nat × β)
  | [], key, val => [(key, val)]
  | (k, v) :: t, key, val =>
    if key = k then (key, val) :: t
    else if key < k then (key, val) :: (k, v) :: t
    else (k, v) :: sinsert t key val

theorem alookup_sinsert_self {β : Type} (l : List (Nat × β)) (key : Nat) (val : β) :
    alookup (sinsert l key val) key = some val := by
  induction l with
  | nil => simp [sinsert, alookup]
  | cons kv t ih =>
    obtain ⟨k, v⟩ := kv
    rw [sinsert]
    split
    · simp [alookup]
    · split
      · simp [alookup]
      · rename_i hk hlt
        rw [alookup, if_neg (fun hh => hk hh.symm)]
        exact ih

theorem alookup_sinsert_ne {β : Type} (l : List (Nat × β)) (key key2 : Nat) (val : β)
    (h : key2 ≠ key) : alookup (sinsert l key val) key2 = alookup l key2 := by
  induction l with
  | nil => simp [sinsert, alookup, Ne.symm h]
  | cons kv t ih =>
    obtain ⟨k, v⟩ := kv
    rw [sinsert]
    split
    · rename_i hk
      subst hk
      rw [alookup, alookup, if_neg (Ne.symm h), if_neg (Ne.symm h)]
    · split
      · rw [alookup, if_neg (Ne.symm h), alookup]
      · rw [alookup, alookup]
        split
        · rfl
        · exact ih

/-- The two views of the TTL index (ttl.rs, struct Lifetimes); instants
are modelled as naturals.  The underlying expungeable store plays no role
in the registered-TTL bookkeeping and is not carried. -/
structure Lifetimes : Type where
  expires : List (Nat × Str)
  ttls : List (Str × Nat)
deriving DecidableEq

/-- Model of Lifetimes::new. -/
def Lifetimes.new : Lifetimes := ⟨[], []⟩

/-- Model of Lifetimes::register_ttl: records the key's expiry instant in
ttls (updating any previous one) and inserts (instant, key) into expires.
The key's previous entry in expires is not removed. -/
def Lifetimes.register_ttl (lt : Lifetimes) (key : Str) (now ttl : Nat) : Lifetimes :=
  ⟨sinsert lt.expires (now + ttl) key, aupsert lt.ttls key (now + ttl)⟩

/-- The Lifetimes value reached from new by a sequence of
register_ttl(key, now, ttl) calls. -/
def registerAll (ops : List (Str × Nat × Nat)) : Lifetimes :=
  ops.foldl (fun lt op => lt.register_ttl op.1 op.2.1 op.2.2) Lifetimes.new

/-- C7: the claimed lockstep invariant is false.  register_ttl does not
remove the key's old entry from expires: after registering a TTL for k at
instant 1 and then re-registering k at instant 6, expires still holds
(1, k) while ttls records k at 6, so the entry (1, k) of expires has no
matching (k, 1) in ttls. -/
theorem C7_ttl_lockstep_counterexample :
    ∃ i k, alookup (registerAll [("k".toList, 0, 1), ("k".toList, 5, 1)]).expires i = some k ∧
      ¬(alookup (registerAll [("k".toList, 0, 1), ("k".toList, 5, 1)]).ttls k = some i) :=
  ⟨1, "k".toList, by decide, by decide⟩

theorem registerAll_dom_aux (ops : List (Str × Nat × Nat)) :
    ∀ start : Lifetimes,
      ((∀ k i, alookup start.ttls k = some i → ∃ k2, alookup start.expires i = some k2) ∧
        (∀ i k, alookup start.expires i = some k → ∃ j, alookup start.ttls k = some j)) →
      ((∀ k i, alookup (ops.foldl (fun lt op => lt.register_ttl op.1 op.2.1 op.2.2) start).ttls
            k = some i →
          ∃ k2, alookup (ops.foldl (fun lt op => lt.register_ttl op.1 op.2.1 op.2.2)
            start).expires i = some k2) ∧
        (∀ i k, alookup (ops.foldl (fun lt op => lt.register_ttl op.1 op.2.1 op.2.2)
            start).expires i = some k →
          ∃ j, alookup (ops.foldl (fun lt op => lt.register_ttl op.1 op.2.1 op.2.2)
            start).ttls k = some j)) := by
  induction ops with
  | nil => intro start h; exact h
  | cons op t ih =>
    intro start h
    rw [List.foldl_cons]
    refine ih (start.register_ttl op.1 op.2.1 op.2.2) ⟨?_, ?_⟩
    · intro k i hk
      rw [Lifetimes.register_ttl] at hk ⊢
      by_cases hkey : k = op.1
      · subst hkey
        rw [alookup_aupsert_self] at hk
        injection hk with hk2
        subst hk2
        exact ⟨op.1, alookup_sinsert_self _ _ _⟩
      · rw [alookup_aupsert_ne _ _ _ _ hkey] at hk
        obtain ⟨k2, hk2⟩ := h.1 k i hk
        by_cases hi : i = op.2.1 + op.2.2
        · subst hi
          exact ⟨op.1, alookup_sinsert_self _ _ _⟩
        · rw [alookup_sinsert_ne _ _ _ _ hi]
          exact ⟨k2, hk2⟩
    · intro i k hi
      rw [Lifetimes.register_ttl] at hi ⊢
      by_cases hii : i = op.2.1 + op.2.2
      · subst hii
        rw [alookup_sinsert_self] at hi
        injection hi with hi2
        subst hi2
        exact ⟨op.2.1 + op.2.2, alookup_aupsert_self _ _ _⟩
      · rw [alookup_sinsert_ne _ _ _ _ hii] at hi
        obtain ⟨j, hj⟩ := h.2 i k hi
        by_cases hkey : k = op.1
        · subst hkey
          exact ⟨op.2.1 + op.2.2, alookup_aupsert_self _ _ _⟩
        · rw [alookup_aupsert_ne _ _ _ _ hkey]
          exact ⟨j, hj⟩

/-- C7 (amended): after any sequence of register_ttl operations on a fresh
TTL index, the two views agree at the level of domains: every instant
recorded in ttls is a key of expires (holding the last key registered at
exactly that instant), and every key named by an expires entry has some
recorded instant in ttls.  The full pairwise lockstep fails because
register_ttl leaves the key's old expires entry behind, reconciling it
only lazily during expunge_expired. -/
theorem C7_ttl_dom_lockstep (ops : List (Str × Nat × Nat)) :
    (∀ k i, alookup (registerAll ops).ttls k = some i →
      ∃ k2, alookup (registerAll ops).expires i = some k2) ∧
    (∀ i k, alookup (registerAll ops).expires i = some k →
      ∃ j, alookup (registerAll ops).ttls k = some j) := by
  refine registerAll_dom_aux ops Lifetimes.new ⟨?_, ?_⟩
  · intro k i h
    simp [Lifetimes.new] at h
  · intro i k h
    simp [Lifetimes.new] at h

/-- One element of the compiled anchored regex of a glob: a literal
character, the dot metacharacter (any one character), or the one-or-more
wildcard that '*' is rewritten to (".+"). -/
inductive GlobPart : Type where
  | lit : Char → GlobPart
  | dot : GlobPart
  | star : GlobPart
deriving DecidableEq

/-- Regex metacharacters other than dot.  A pattern containing one leaves
the fragment modelled here: Glob::new still hands such a pattern to the
regex crate unescaped, where a quantifier or alternation keeps its regex
meaning and an unbalanced bracket fails to compile; none of the theorems
below concerns that case. -/
def regexMeta : List Nat := [43, 63, 40, 41, 91, 93, 123, 125, 124, 94, 36, 92]

/-- Compilation of one pattern character under Glob::new (globs.rs): a
star becomes the one-or-more wildcard ".+", a dot stays the regex dot, any
other non-metacharacter matches itself.  A remaining metacharacter is
outside the modelled fragment and yields none here (the real Glob::new
does not fail on all of them - a quantifier such as '+' compiles with its
regex meaning - so none marks the pattern as unmodelled, not as
rejected). -/
def compileGlobChar (c : Char) : Option GlobPart :=
  if c = '*' then some GlobPart.star
  else if c = '.' then some GlobPart.dot
  else if c.toNat ∈ regexMeta then none
  else some (GlobPart.lit c)

/-- Model of Glob::new (globs.rs): the pattern has its stars replaced by
".+", is anchored with a caret and a dollar, and is compiled by the regex
crate; the model compiles each character in the fragment described at
compileGlobChar and returns none on patterns outside it. -/
def globNew (pattern : Str) : Option (List GlobPart) :=
  pattern.mapM compileGlobChar

/-- Anchored matching of the compiled parts against a candidate (the regex
crate's is_match on the anchored pattern).  The regex crate's dot - and
hence the ".+" a star is rewritten to - matches any character except a
newline by default, so both the dot arm and the star arm refuse to
consume '\n'. -/
def globMatches : List GlobPart → Str → Bool
  | [], [] => true
  | [], _ :: _ => false
  | GlobPart.lit c :: ps, x :: xs => (c = x) && globMatches ps xs
  | GlobPart.dot :: ps, x :: xs =>
      if x = '\n' then false else globMatches ps xs
  | GlobPart.star :: ps, x :: xs =>
      if x = '\n' then false
      else globMatches ps xs || globMatches (GlobPart.star :: ps) xs
  | _ :: _, [] => false
termination_by p s => p.length + s.length

/-- The specification's reading of a glob pattern: matched as an anchored
literal in which each star stands for one or more arbitrary characters
(never zero), every other character matching only itself. -/
def specGlobMatches : Str → Str → Bool
  | [], [] => true
  | [], _ :: _ => false
  | _ :: _, [] => false
  | p :: ps, x :: xs =>
    if p = '*' then specGlobMatches ps xs || specGlobMatches (p :: ps) xs
    else (p = x) && specGlobMatches ps xs
termination_by p s => p.length + s.length

/-- Pattern characters that stay inside the literal-and-star fragment. -/
def safePattern (p : Str) : Bool :=
  p.all fun c => !(c.toNat ∈ regexMeta : Bool) && !(c = '.' : Bool)

/-- Candidates free of newlines; on these the regex dot behaves as "any
one character", so the star reading of the spec and the compiled ".+"
agree. -/
def noNewline (s : Str) : Bool :=
  s.all fun c => !(c = '\n' : Bool)

/-- Compilation of a star-or-literal pattern character. -/
def globCharPart (c : Char) : GlobPart :=
  if c = '*' then GlobPart.star else GlobPart.lit c

theorem globNew_safe (p : Str) (h : safePattern p = true) :
    globNew p = some (p.map globCharPart) := by
  induction p with
  | nil => rfl
  | cons c t ih =>
    rw [safePattern, List.all_cons, Bool.and_eq_true] at h
    rw [globNew, List.mapM_cons]
    have hc : compileGlobChar c = some (globCharPart c) := by
      rw [compileGlobChar, globCharPart]
      split
      · rfl
      · rw [if_neg ?hdot, if_neg ?hmeta]
        case hdot =>
          simp only [Bool.and_eq_true, Bool.not_eq_true] at h
          intro hd
          rw [hd] at h
          simp at h
        case hmeta =>
          simp only [Bool.and_eq_true, Bool.not_eq_true] at h
          intro hm
          rw [decide_eq_true hm] at h
          simp at h
    rw [hc]
    have := ih (by rw [safePattern]; exact h.2)
    rw [globNew] at this
    rw [this]
    rfl

theorem glob_spec_equiv : (p : Str) → (cand : Str) → safePattern p = true →
    noNewline cand = true →
    globMatches (p.map globCharPart) cand = specGlobMatches p cand
  | [], [], _, _ => by simp [globMatches, specGlobMatches]
  | [], x :: xs, _, _ => by simp [globMatches, specGlobMatches]
  | p0 :: ps, [], h, _ => by
      rw [List.map_cons]
      rw [globCharPart]
      split <;> simp [globMatches, specGlobMatches]
  | p0 :: ps, x :: xs, h, hn => by
      have hps : safePattern ps = true := by
        rw [safePattern, List.all_cons, Bool.and_eq_true] at h
        rw [safePattern]
        exact h.2
      have hxn : ¬(x = '\n') := by
        rw [noNewline, List.all_cons, Bool.and_eq_true] at hn
        simpa using hn.1
      have hxs : noNewline xs = true := by
        rw [noNewline, List.all_cons, Bool.and_eq_true] at hn
        rw [noNewline]
        exact hn.2
      rw [List.map_cons, globCharPart]
      by_cases hstar : p0 = '*'
      · rw [if_pos hstar]
        rw [globMatches, specGlobMatches, if_pos hstar, if_neg hxn]
        rw [glob_spec_equiv ps xs hps hxs]
        subst hstar
        have hrec := glob_spec_equiv ('*' :: ps) xs h hxs
        rw [List.map_cons, globCharPart, if_pos rfl] at hrec
        rw [hrec]
      · rw [if_neg hstar]
        rw [globMatches, specGlobMatches, if_neg hstar]
        rw [glob_spec_equiv ps xs hps hxs]
termination_by p cand _ _ => p.length + cand.length
decreasing_by
  all_goals simp <;> omega

/-- C8: the claim says Glob::new succeeds on every pattern and matches a
candidate exactly when the pattern read as an anchored literal with
one-or-more stars does.  The code disagrees: pattern characters are not
escaped before being handed to the regex engine, so the dot in the
pattern a.c matches any character, and the candidate abc matches although
it differs from the pattern read literally.  (Patterns with other regex
metacharacters also keep their regex meaning or fail to compile.) -/
theorem C8_glob_counterexample :
    globNew "a.c".toList = some [GlobPart.lit 'a', GlobPart.dot, GlobPart.lit 'c'] ∧
    globMatches [GlobPart.lit 'a', GlobPart.dot, GlobPart.lit 'c'] "abc".toList = true ∧
    specGlobMatches "a.c".toList "abc".toList = false := by
  refine ⟨by decide, ?_, ?_⟩
  · simp [globMatches]
  · simp [specGlobMatches]

/-- C8 (amended): for every pattern built only from stars and characters
that are neither regex metacharacters nor the dot, and every candidate
containing no newline, Glob::new succeeds, and the compiled glob matches
the candidate exactly when the pattern read as an anchored literal with
each star standing for one or more arbitrary characters (never zero)
does.  The newline restriction is forced by the code: the regex crate's
".+" that a star becomes never matches '\n', so a star cannot span a
newline. -/
theorem C8_glob_star_semantics (p cand : Str) (h : safePattern p = true)
    (hn : noNewline cand = true) :
    ∃ g, globNew p = some g ∧ globMatches g cand = specGlobMatches p cand :=
  ⟨p.map globCharPart, globNew_safe p h, glob_spec_equiv p cand h hn⟩

/-- Witness for C8 at the pattern a*b and candidate aXYb. -/
theorem C8_glob_star_semantics_witness :
    safePattern "a*b".toList = true ∧ noNewline "aXYb".toList = true ∧
      ∃ g, globNew "a*b".toList = some g ∧
        globMatches g "aXYb".toList = specGlobMatches "a*b".toList "aXYb".toList :=
  ⟨by decide, by decide,
    C8_glob_star_semantics ("a*b".toList) ("aXYb".toList) (by decide) (by decide)⟩

/-- A decoded transaction-log entry (tx_log.rs, struct LogEntry) reduced
to the fields replay observes: the revision (a usize) and the rendered
message text; the wall-clock timestamp plays no role in replay. -/
structure LogEntryM : Type where
  revision : Nat
  content : Str
deriving DecidableEq

/-- Model of ReplayView::iter (tx_log.rs): skip_while drops the leading
run of entries whose revision is below the requested one, and every
remaining entry's content is parsed back into a message.  The base64 and
binary line decoding of the file is assumed to succeed, as it does for
every line the log itself wrote. -/
def replayIter (since : Nat) (entries : List LogEntryM) : List (Except String Message) :=
  (entries.dropWhile fun e => e.revision < since).map
    fun e => parse_message_phrase e.content

/-- The claimed behaviour, from the specification's words: keep exactly
the entries whose revision is at least the requested one. -/
def replayClaimed (since : Nat) (entries : List LogEntryM) : List (Except String Message) :=
  (entries.filter fun e => since ≤ e.revision).map
    fun e => parse_message_phrase e.content

/-- C9: the claim says replay yields exactly the entries with revision at
least r for every sequence of log entries.  The code disagrees on logs
whose revisions are not monotone: skip_while only drops the leading run,
so for the log with revisions 5 then 1 and r = 3 the code yields both
entries while the claim predicts only the first. -/
theorem C9_replay_counterexample :
    replayIter 3 [⟨5, ['x']⟩, ⟨1, ['y']⟩] ≠ replayClaimed 3 [⟨5, ['x']⟩, ⟨1, ['y']⟩] := by
  intro h
  have hlen := congrArg List.length h
  simp [replayIter, replayClaimed, List.dropWhile, List.filter] at hlen

/-- True when the revisions along the log never decrease (the shape of
every log the system itself writes, since each commit bumps the
revision). -/
def revisionsNondecreasing : List LogEntryM → Bool
  | [] => true
  | [_] => true
  | a :: b :: t => (a.revision ≤ b.revision) && revisionsNondecreasing (b :: t)

theorem revisionsNondecreasing_tail (e : LogEntryM) (t : List LogEntryM)
    (h : revisionsNondecreasing (e :: t) = true) :
    revisionsNondecreasing t = true := by
  cases t with
  | nil => rfl
  | cons b t2 =>
    rw [revisionsNondecreasing, Bool.and_eq_true] at h
    exact h.2

theorem revisionsNondecreasing_head_le (e : LogEntryM) (t : List LogEntryM)
    (h : revisionsNondecreasing (e :: t) = true) :
    ∀ x ∈ t, e.revision ≤ x.revision := by
  induction t generalizing e with
  | nil => intro x hx; simp at hx
  | cons b t2 ih =>
    rw [revisionsNondecreasing, Bool.and_eq_true] at h
    intro x hx
    rcases List.mem_cons.mp hx with rfl | hx2
    · exact by simpa using h.1
    · exact le_trans (by simpa using h.1) (ih b h.2 x hx2)

/-- C9 (amended): replay drops exactly the maximal prefix of entries with
revision below the requested one; when the log's revisions are
nondecreasing - as in every log the system writes - this coincides with
the claimed strict revision filter, yielding exactly the decoded messages
of the entries with revision at least r, in log order. -/
theorem C9_replay_strict_filter (since : Nat) (entries : List LogEntryM)
    (h : revisionsNondecreasing entries = true) :
    replayIter since entries = replayClaimed since entries := by
  induction entries with
  | nil => rfl
  | cons e t ih =>
    rw [replayIter, replayClaimed]
    by_cases hlt : e.revision < since
    · rw [List.dropWhile_cons]
      simp only [decide_eq_true hlt]
      rw [List.filter_cons]
      have hnot : ¬(since ≤ e.revision) := by omega
      simp only [decide_eq_false hnot]
      have := ih (revisionsNondecreasing_tail e t h)
      rw [replayIter, replayClaimed] at this
      simpa using this
    · rw [List.dropWhile_cons]
      simp only [decide_eq_false hlt]
      rw [List.filter_cons]
      have hge : since ≤ e.revision := by omega
      simp only [decide_eq_true hge]
      have hall : ∀ x ∈ t, (since ≤ x.revision : Bool) = true := by
        intro x hx
        have := revisionsNondecreasing_head_le e t h x hx
        simp
        omega
      rw [List.filter_eq_self.mpr hall]
      simp

/-- Witness for C9 on a concrete nondecreasing log. -/
theorem C9_replay_strict_filter_witness :
    revisionsNondecreasing [⟨1, ['x']⟩, ⟨2, ['y']⟩] = true ∧
      replayIter 2 [⟨1, ['x']⟩, ⟨2, ['y']⟩] = replayClaimed 2 [⟨1, ['x']⟩, ⟨2, ['y']⟩] :=
  ⟨by decide, C9_replay_strict_filter 2 [⟨1, ['x']⟩, ⟨2, ['y']⟩] (by decide)⟩

/-- Modelled from the spec: the module defining core::Dataset, core::Domain
and core::DomainContext is not among the sources (only its callers are);
per the specification's data model the dataset is three independent keyed
containers sharing one key namespace - strings, lists and sorted sets -
which is exactly the shape the generic and datatype modules access. -/
structure Domain : Type where
  strings : List (Str × Str)
  lists : List (Str × List Str)
  sorted_sets : List (Str × OrderedScores)

/-- Result of a SCAN step (generic.rs, enum ScanResult). -/
inductive ScanResult : Type where
  | Complete : List Str → ScanResult
  | Chunk : Nat → List Str → ScanResult

/-- The keys carried by a scan result (ScanResult::get_data). -/
def scanData : ScanResult → List Str
  | ScanResult.Complete xs => xs
  | ScanResult.Chunk _ xs => xs

/-- Model of Generic::filter_keys (generic.rs): the string keys chained
with the list keys, kept when the compiled glob matches (an uncompilable
pattern keeps nothing). -/
def filter_keys (d : Domain) (pattern : Str) : List Str :=
  let glob := globNew pattern
  (akeys d.strings ++ akeys d.lists).filterMap fun s =>
    glob.bind fun g => if globMatches g s then some s else none

/-- Model of Generic::scan_keys (generic.rs): a window of the chained
string and list keys starting at the cursor, optionally filtered by the
pattern. -/
def scan_keys (d : Domain) (cursor : Nat) (pattern : Option Str) (count : Option Nat)
    (_tpe : Option Str) : ScanResult :=
  let combined_size := d.strings.length + d.lists.length
  let count2 := count.getD 10
  let glob := pattern.bind globNew
  let content :=
    (((akeys d.strings ++ akeys d.lists).drop cursor).take count2).filterMap fun s =>
      match glob with
      | some g => if globMatches g s then some s else none
      | none => some s
  if combined_size < cursor + count2 then ScanResult.Complete content
  else ScanResult.Chunk (cursor + count2 + 1) content

/-- Model of Generic::type_of_key (generic.rs). -/
def type_of_key (d : Domain) (key : Str) : Option Str :=
  if key ∈ akeys d.strings then some "string".toList
  else if key ∈ akeys d.lists then some "list".toList
  else none

/-- Model of Generic::key_exists (generic.rs). -/
def key_exists (d : Domain) (key : Str) : Bool :=
  (akeys d.strings ++ akeys d.lists).any fun k => k = key

/-- C10: a key bound only in the sorted_sets container - absent from the
strings and lists containers - is invisible to every generic keyspace
operation: key_exists answers false (EXISTS 0), type_of_key answers none
(TYPE none), and the key never appears in the output of filter_keys or
scan_keys, whatever the pattern, cursor and count, so KEYS, SCAN and
DBSIZE ignore sorted-set keys. -/
theorem C10_sorted_set_keys_invisible (d : Domain) (key : Str)
    (hss : key ∈ akeys d.sorted_sets)
    (hstr : key ∉ akeys d.strings) (hlst : key ∉ akeys d.lists) :
    key_exists d key = false ∧
    type_of_key d key = none ∧
    (∀ pattern, key ∉ filter_keys d pattern) ∧
    (∀ cursor pattern count tpe, key ∉ scanData (scan_keys d cursor pattern count tpe)) := by
  have hchain : key ∉ akeys d.strings ++ akeys d.lists := by
    rw [List.mem_append]
    rintro (h | h)
    · exact hstr h
    · exact hlst h
  refine ⟨?_, ?_, ?_, ?_⟩
  · rw [key_exists]
    rw [List.any_eq_false]
    intro k hk
    simp only [decide_eq_true_eq]
    rintro rfl
    exact hchain hk
  · rw [type_of_key, if_neg hstr, if_neg hlst]
  · intro pattern hmem
    rw [filter_keys] at hmem
    obtain ⟨a, ha, hfa⟩ := List.mem_filterMap.mp hmem
    cases hg : globNew pattern with
    | none =>
      rw [hg] at hfa
      exact Option.noConfusion hfa
    | some g =>
      rw [hg, Option.some_bind] at hfa
      have hak : a = key := by
        repeat' split at hfa
        all_goals
          first
            | exact Option.some_injective _ hfa
            | exact Option.noConfusion hfa
      subst hak
      exact hchain ha
  · intro cursor pattern count tpe hmem
    rw [scan_keys] at hmem
    split at hmem <;>
      · rw [scanData] at hmem
        obtain ⟨a, ha, hfa⟩ := List.mem_filterMap.mp hmem
        have hachain : a ∈ akeys d.strings ++ akeys d.lists :=
          List.mem_of_mem_drop (List.mem_of_mem_take ha)
        have hak : a = key := by
          repeat' split at hfa
          all_goals
            first
              | exact Option.some_injective _ hfa
              | exact Option.noConfusion hfa
        subst hak
        exact hchain hachain

/-- Witness for C10 on a dataset holding exactly one sorted-set key. -/
theorem C10_sorted_set_keys_invisible_witness :
    ("z".toList ∈ akeys (Domain.mk [] [] [("z".toList, OrderedScores.new)]).sorted_sets ∧
      "z".toList ∉ akeys (Domain.mk [] [] [("z".toList, OrderedScores.new)]).strings ∧
      "z".toList ∉ akeys (Domain.mk [] [] [("z".toList, OrderedScores.new)]).lists) ∧
    (key_exists (Domain.mk [] [] [("z".toList, OrderedScores.new)]) "z".toList = false ∧
      type_of_key (Domain.mk [] [] [("z".toList, OrderedScores.new)]) "z".toList = none ∧
      (∀ pattern,
        "z".toList ∉ filter_keys (Domain.mk [] [] [("z".toList, OrderedScores.new)]) pattern) ∧
      (∀ cursor pattern count tpe, "z".toList ∉
        scanData (scan_keys (Domain.mk [] [] [("z".toList, OrderedScores.new)])
          cursor pattern count tpe))) :=
  ⟨⟨by decide, by decide, by decide⟩,
    C10_sorted_set_keys_invisible (Domain.mk [] [] [("z".toList, OrderedScores.new)])
      "z".toList (by decide) (by decide) (by decide)⟩
